import Mathlib

/-!
# 3D-Chess: move highlighting and piece relocation (`src/chess.js`)

A shallow embedding of the game logic of `src/chess.js` (the closures inside
`createScene`) and the properties proved about it.

## Conventions of the embedding

* Scene coordinates.  Every coordinate the program produces is a multiple of
  `0.5` (`i - boardSize / 2 + 0.5`, `-2.5`, `3.5`, tile positions), so a
  `Vector3` stores each coordinate in *half units*: the integer `2 * v` stands
  for the JavaScript number `v`.  `Vector3(-3.5, 0.5, -3.5)` is `⟨-7, 1, -7⟩`.
  All arithmetic involved is exact in IEEE doubles at these magnitudes.
* Mesh identity.  JavaScript compares meshes by reference
  (`pieces.includes(pickedMesh)`, `validMoves.includes(pickedMesh)`).  A piece
  mesh carries an `id`, allocated from the counter `State.nextId` at creation;
  a tile mesh is identified by its index pair (its name `tile${row}_${col}`).
* Rendering (materials, emissive colours, `dispose`) is not modelled.
* A JavaScript `TypeError` and a loop that has not finished within the given
  fuel are the two values of `Err`; functions that can throw or loop return
  `Except Err _`.
-/

namespace Chess

/-- Embeds `const boardSize = 8`. -/
def boardSize : Int := 8

/-- A `BABYLON.Vector3`, coordinates in half units. -/
structure Vector3 where
  x : Int
  y : Int
  z : Int
deriving DecidableEq

/-- Embeds `Math.round(v)` where the argument is given in half units: `v = v2 / 2`
and `Math.round v = ⌊v + 0.5⌋ = ⌊(v2 + 1) / 2⌋`. -/
def mathRound (v2 : Int) : Int := (v2 + 1) / 2

/-- A tile mesh: `row`, `col` are its indices in `tiles` (its identity, as in
its name), `position` its scene position. -/
structure Tile where
  row : Int
  col : Int
  position : Vector3
deriving DecidableEq

/-- The tile built by `createOrUpdateTiles` for `(row, col)`: position
`(row - boardSize / 2 + 0.5, 0, col - boardSize / 2 + 0.5)`. -/
def mkTile (row col : Int) : Tile :=
  { row := row, col := col,
    position := { x := 2 * row - boardSize + 1, y := 0, z := 2 * col - boardSize + 1 } }

/-- The array `tiles` after `createOrUpdateTiles()`: `tiles[row][col]` for
`row, col` in `0 .. boardSize - 1`.  Toggling the theme only recolours the
existing tiles, so the array is constant. -/
def tiles : List (List Tile) :=
  (List.range boardSize.toNat).map fun (row : Nat) =>
    (List.range boardSize.toNat).map fun (col : Nat) => mkTile row col

/-- The lookup `tiles[row][col]`; `none` where JavaScript yields `undefined`. -/
def tileAt (row col : Int) : Option Tile :=
  if row < 0 ∨ col < 0 then none
  else (tiles.get? row.toNat).bind fun tileRow => tileRow.get? col.toNat

/-- Embeds `piece.metadata`. -/
structure Metadata where
  type : String
  color : String
deriving DecidableEq

/-- A piece mesh. -/
structure Piece where
  id : Nat
  position : Vector3
  metadata : Metadata
deriving DecidableEq

/-- The two entries of the `colors` palette passed to `createPiece`. -/
inductive Color3 where
  | colorsWhite
  | colorsBlack
deriving DecidableEq

/-- An element `{ dr, dc }` of a direction table. -/
structure Direction where
  dr : Int
  dc : Int
deriving DecidableEq

/-- What a modelled call can fail with. -/
inductive Err where
  | typeError
  | outOfFuel
deriving DecidableEq

/-- The mutable variables of the program: the globals `isDarkMode` and
`currentTurn`, and `pieces`, `selectedPiece`, `validMoves` of `createScene`.
`selectedPiece` holds the identity of the selected mesh; `nextId` is the
allocation counter for mesh identities. -/
structure State where
  isDarkMode : Bool
  currentTurn : String
  pieces : List Piece
  selectedPiece : Option Nat
  validMoves : List Tile
  nextId : Nat
deriving DecidableEq

/-- Embeds `Math.round(piece.position.x + boardSize / 2 - 0.5)`. -/
def pieceRow (piece : Piece) : Int := mathRound (piece.position.x + boardSize - 1)

/-- Embeds `Math.round(piece.position.z + boardSize / 2 - 0.5)`. -/
def pieceCol (piece : Piece) : Int := mathRound (piece.position.z + boardSize - 1)

/-- Embeds `isOccupied(row, col)` over the list `pieces`. -/
def isOccupied (pieces : List Piece) (row col : Int) : Bool :=
  pieces.any fun piece => pieceRow piece == row && pieceCol piece == col

/-- Embeds `highlightTile(row, col)`: push `tiles[row][col]` on `validMoves`.  An
index outside the array makes the JavaScript throw a `TypeError`. -/
def highlightTile (validMoves : List Tile) (row col : Int) : Except Err (List Tile) :=
  match tileAt row col with
  | some tile => .ok (validMoves ++ [tile])
  | none => .error .typeError

/-- Embeds `highlightMoves(row, col, directions)`, threading `validMoves`. -/
def highlightMoves (pieces : List Piece) (row col : Int) (directions : List Direction)
    (validMoves : List Tile) : Except Err (List Tile) :=
  directions.foldlM
    (fun validMoves d =>
      let newRow := row + d.dr
      let newCol := col + d.dc
      if newRow ≥ 0 ∧ newRow < boardSize ∧ newCol ≥ 0 ∧ newCol < boardSize ∧
          ¬ (isOccupied pieces newRow newCol = true) then
        highlightTile validMoves newRow newCol
      else .ok validMoves)
    validMoves

/-- The `while` loop of `highlightLineMoves` for one direction, entered with
the current `newRow`, `newCol`.  Each evaluation of the loop condition uses
one unit of fuel. -/
def lineWalk (pieces : List Piece) (dr dc : Int) :
    Nat → Int → Int → List Tile → Except Err (List Tile)
  | 0, _, _, _ => .error .outOfFuel
  | fuel + 1, newRow, newCol, validMoves =>
    if newRow ≥ 0 ∧ newRow < boardSize ∧ newCol ≥ 0 ∧ newCol < boardSize then
      if isOccupied pieces newRow newCol = true then .ok validMoves
      else
        match highlightTile validMoves newRow newCol with
        | .ok validMoves => lineWalk pieces dr dc fuel (newRow + dr) (newCol + dc) validMoves
        | .error e => .error e
    else .ok validMoves

/-- Embeds `highlightLineMoves(row, col, directions)`, threading `validMoves`. -/
def highlightLineMoves (pieces : List Piece) (fuel : Nat) (row col : Int)
    (directions : List Direction) (validMoves : List Tile) : Except Err (List Tile) :=
  directions.foldlM
    (fun validMoves d => lineWalk pieces d.dr d.dc fuel (row + d.dr) (col + d.dc) validMoves)
    validMoves

/-- Embeds `clearHighlights()`: empties `validMoves` (the colour resets are rendering). -/
def clearHighlights (s : State) : State := { s with validMoves := [] }

/-- Direction table of the `"rook"` case. -/
def rookDirections : List Direction := [⟨1, 0⟩, ⟨-1, 0⟩, ⟨0, 1⟩, ⟨0, -1⟩]

/-- Direction table of the `"bishop"` case. -/
def bishopDirections : List Direction := [⟨1, 1⟩, ⟨-1, -1⟩, ⟨1, -1⟩, ⟨-1, 1⟩]

/-- Direction table of the `"queen"` case. -/
def queenDirections : List Direction :=
  [⟨1, 0⟩, ⟨-1, 0⟩, ⟨0, 1⟩, ⟨0, -1⟩, ⟨1, 1⟩, ⟨-1, -1⟩, ⟨1, -1⟩, ⟨-1, 1⟩]

/-- Direction table of the `"king"` case. -/
def kingDirections : List Direction :=
  [⟨1, 0⟩, ⟨-1, 0⟩, ⟨0, 1⟩, ⟨0, -1⟩, ⟨1, 1⟩, ⟨-1, -1⟩, ⟨1, -1⟩, ⟨-1, 1⟩]

/-- Direction table of the `"knight"` case. -/
def knightDirections : List Direction :=
  [⟨2, 1⟩, ⟨1, 2⟩, ⟨-1, 2⟩, ⟨-2, 1⟩, ⟨-2, -1⟩, ⟨-1, -2⟩, ⟨1, -2⟩, ⟨2, -1⟩]

/-- Embeds `showValidMoves(piece)`. -/
def showValidMoves (fuel : Nat) (s : State) (piece : Piece) : Except Err State :=
  let s := clearHighlights s
  match tiles.flatten.find? (fun tile =>
      tile.position.x == piece.position.x && tile.position.z == piece.position.z) with
  | none => .ok s
  | some currentTile =>
    let row := mathRound (currentTile.position.x + boardSize - 1)
    let col := mathRound (currentTile.position.z + boardSize - 1)
    let s := { s with validMoves := [] }
    if piece.metadata.type = "pawn" then
      let dir : Int := if piece.metadata.color = "white" then -1 else 1
      let nextRow := row
      let nextCol := col + dir
      if nextCol ≥ 0 ∧ nextCol < boardSize ∧ ¬ (isOccupied s.pieces nextRow nextCol = true) then
        (highlightTile s.validMoves nextRow nextCol).map fun vm => { s with validMoves := vm }
      else .ok s
    else if piece.metadata.type = "rook" then
      (highlightLineMoves s.pieces fuel row col rookDirections s.validMoves).map
        fun vm => { s with validMoves := vm }
    else if piece.metadata.type = "bishop" then
      (highlightLineMoves s.pieces fuel row col bishopDirections s.validMoves).map
        fun vm => { s with validMoves := vm }
    else if piece.metadata.type = "queen" then
      (highlightLineMoves s.pieces fuel row col queenDirections s.validMoves).map
        fun vm => { s with validMoves := vm }
    else if piece.metadata.type = "king" then
      (highlightMoves s.pieces row col kingDirections s.validMoves).map
        fun vm => { s with validMoves := vm }
    else if piece.metadata.type = "knight" then
      (highlightMoves s.pieces row col knightDirections s.validMoves).map
        fun vm => { s with validMoves := vm }
    else .ok s

/-- Embeds `selectPiece(piece)`. -/
def selectPiece (fuel : Nat) (s : State) (piece : Piece) : Except Err State :=
  if (s.pieces.any fun p => p.id == piece.id) = true ∧ piece.metadata.color = s.currentTurn then
    let s := if s.selectedPiece.isSome then clearHighlights s else s
    let s := { s with selectedPiece := some piece.id }
    showValidMoves fuel s piece
  else .ok s

/-- Embeds `updateTurn()`. -/
def updateTurn (s : State) : State :=
  { s with currentTurn := if s.currentTurn = "white" then "black" else "white" }

/-- Embeds `createPiece(type, position, color)`; the returned mesh is not used by
any caller, so only the effect on the state is kept. -/
def createPiece (s : State) (type : String) (position : Vector3) (color : Color3) : State :=
  if type = "pawn" ∨ type = "rook" ∨ type = "knight" ∨ type = "bishop" ∨ type = "queen" ∨
      type = "king" then
    { s with
      pieces := s.pieces ++
        [{ id := s.nextId, position := position,
           metadata := { type := type,
                         color := if color = Color3.colorsWhite then "white" else "black" } }],
      nextId := s.nextId + 1 }
  else s

/-- Embeds `createPieces()`: dispose of all pieces, empty the list, and create the 32
pieces of the initial placement. -/
def createPieces (s : State) : State :=
  let s := { s with pieces := [] }
  -- Pawns
  let s := (List.range boardSize.toNat).foldl
    (fun (s : State) (i : Nat) =>
      let s := createPiece s "pawn" ⟨2 * (i : Int) - boardSize + 1, 1, -5⟩ .colorsWhite
      createPiece s "pawn" ⟨2 * (i : Int) - boardSize + 1, 1, 5⟩ .colorsBlack)
    s
  -- Rooks
  let s := createPiece s "rook" ⟨-7, 1, -7⟩ .colorsWhite
  let s := createPiece s "rook" ⟨7, 1, -7⟩ .colorsWhite
  let s := createPiece s "rook" ⟨-7, 1, 7⟩ .colorsBlack
  let s := createPiece s "rook" ⟨7, 1, 7⟩ .colorsBlack
  -- Knights
  let s := createPiece s "knight" ⟨-5, 1, -7⟩ .colorsWhite
  let s := createPiece s "knight" ⟨5, 1, -7⟩ .colorsWhite
  let s := createPiece s "knight" ⟨-5, 1, 7⟩ .colorsBlack
  let s := createPiece s "knight" ⟨5, 1, 7⟩ .colorsBlack
  -- Bishops
  let s := createPiece s "bishop" ⟨-3, 1, -7⟩ .colorsWhite
  let s := createPiece s "bishop" ⟨3, 1, -7⟩ .colorsWhite
  let s := createPiece s "bishop" ⟨-3, 1, 7⟩ .colorsBlack
  let s := createPiece s "bishop" ⟨3, 1, 7⟩ .colorsBlack
  -- Queens
  let s := createPiece s "queen" ⟨-1, 1, -7⟩ .colorsWhite
  let s := createPiece s "queen" ⟨-1, 1, 7⟩ .colorsBlack
  -- Kings
  let s := createPiece s "king" ⟨1, 1, -7⟩ .colorsWhite
  createPiece s "king" ⟨1, 1, 7⟩ .colorsBlack

/-- A mesh the pointer can pick: a tile or a piece mesh (by identity). -/
inductive Mesh where
  | tile (t : Tile)
  | piece (id : Nat)
deriving DecidableEq

/-- What the user can do: a `POINTERPICK` with `pickInfo.pickedMesh` (possibly
`null`), a click on "Toggle Theme", a click on "Reset Board". -/
inductive Event where
  | pointerPick (pickedMesh : Option Mesh)
  | toggleTheme
  | resetBoard
deriving DecidableEq

/-- Embeds `pieces.includes(pickedMesh)`, returning the piece found. -/
def piecesFind (pieces : List Piece) : Mesh → Option Piece
  | .piece id => pieces.find? fun p => p.id == id
  | .tile _ => none

/-- Embeds `validMoves.includes(pickedMesh)`. -/
def validMovesIncludes (validMoves : List Tile) : Mesh → Bool
  | .tile t => validMoves.contains t
  | .piece _ => false

/-- Embeds `pickedMesh.position` for a tile mesh (only read when the mesh is in
`validMoves`, hence a tile). -/
def meshPosition : Mesh → Option Vector3
  | .tile t => some t.position
  | .piece _ => none

/-- The `POINTERPICK` case of the `scene.onPointerObservable` handler. -/
def onPointerPick (fuel : Nat) (s : State) (pickedMesh : Option Mesh) : Except Err State :=
  match pickedMesh with
  | none => .ok s
  | some mesh =>
    match piecesFind s.pieces mesh with
    | some piece => selectPiece fuel s piece
    | none =>
      if validMovesIncludes s.validMoves mesh = true then
        match s.selectedPiece, meshPosition mesh with
        | some sel, some position =>
          let s := { s with pieces := s.pieces.map fun p =>
                      if p.id = sel then { p with position := position } else p }
          let s := updateTurn s
          let s := clearHighlights s
          .ok { s with selectedPiece := none }
        | _, _ => .ok s
      else .ok s

/-- One user event. -/
def step (fuel : Nat) (s : State) : Event → Except Err State
  | .pointerPick pickedMesh => onPointerPick fuel s pickedMesh
  | .toggleTheme => .ok { s with isDarkMode := !s.isDarkMode }
  | .resetBoard => .ok (createPieces s)

/-- A sequence of user events, in order. -/
def run (fuel : Nat) (s : State) (events : List Event) : Except Err State :=
  events.foldlM (step fuel) s

/-- The state when `createScene` returns: `isDarkMode = true`,
`currentTurn = "white"`, the pieces of `createPieces()`, nothing selected. -/
def initialState : State :=
  createPieces
    { isDarkMode := true, currentTurn := "white", pieces := [], selectedPiece := none,
      validMoves := [], nextId := 0 }

/-! ## Vocabulary used to state the properties -/

/-- A square `(row, col)` lies on the board. -/
def inBounds (row col : Int) : Prop :=
  0 ≤ row ∧ row < boardSize ∧ 0 ≤ col ∧ col < boardSize

instance (row col : Int) : Decidable (inBounds row col) := by
  unfold inBounds; infer_instance

/-- The piece stands on square `(row, col)`: its scene position has the `x`
and `z` of the tile of that square (the test `showValidMoves` uses to find
`currentTile`). -/
def standsOn (piece : Piece) (row col : Int) : Prop :=
  piece.position.x = (mkTile row col).position.x ∧
    piece.position.z = (mkTile row col).position.z

instance (piece : Piece) (row col : Int) : Decidable (standsOn piece row col) := by
  unfold standsOn; infer_instance

/-- The tile is on the board and no piece of the list stands on its square. -/
def free (pieces : List Piece) (t : Tile) : Bool :=
  decide (inBounds t.row t.col) && !isOccupied pieces t.row t.col

/-- The seven tiles-to-be along direction `d` from `(row, col)`, nearest
first (some may lie off the board). -/
def rayTiles (row col : Int) (d : Direction) : List Tile :=
  (List.range 7).map fun k : Nat => mkTile (row + (k + 1) * d.dr) (col + (k + 1) * d.dc)

/-- Closed form of a sliding move list: for each direction in turn, the
longest free initial stretch of the ray. -/
def lineMoves (pieces : List Piece) (row col : Int) (directions : List Direction) : List Tile :=
  directions.flatMap fun d => (rayTiles row col d).takeWhile (free pieces)

/-- Closed form of a stepping move list: the free targets, in table order. -/
def stepMoves (pieces : List Piece) (row col : Int) (directions : List Direction) : List Tile :=
  (directions.map fun d => mkTile (row + d.dr) (col + d.dc)).filter (free pieces)

/-- The eight unit directions: every direction a sliding piece uses. -/
def unitDirection (d : Direction) : Prop :=
  (d.dr = 1 ∨ d.dr = 0 ∨ d.dr = -1) ∧ (d.dc = 1 ∨ d.dc = 0 ∨ d.dc = -1) ∧
    ¬ (d.dr = 0 ∧ d.dc = 0)

instance (d : Direction) : Decidable (unitDirection d) := by
  unfold unitDirection; infer_instance

/-- Forward direction of a pawn in `showValidMoves`: `-1` for white, else `1`. -/
def pawnDir (color : String) : Int := if color = "white" then -1 else 1

/-- Closed form of the list `showValidMoves` leaves in `validMoves` for a
piece with metadata `m` standing on `(row, col)`. -/
def movesOf (pieces : List Piece) (m : Metadata) (row col : Int) : List Tile :=
  if m.type = "pawn" then stepMoves pieces row col [⟨0, pawnDir m.color⟩]
  else if m.type = "rook" then lineMoves pieces row col rookDirections
  else if m.type = "bishop" then lineMoves pieces row col bishopDirections
  else if m.type = "queen" then lineMoves pieces row col queenDirections
  else if m.type = "king" then stepMoves pieces row col kingDirections
  else if m.type = "knight" then stepMoves pieces row col knightDirections
  else []

/-- The four orthogonal unit vectors. -/
def orthogonalUnit (dr dc : Int) : Prop :=
  (dr = 0 ∧ (dc = 1 ∨ dc = -1)) ∨ (dc = 0 ∧ (dr = 1 ∨ dr = -1))

/-- The four diagonal unit vectors. -/
def diagonalUnit (dr dc : Int) : Prop :=
  (dr = 1 ∨ dr = -1) ∧ (dc = 1 ∨ dc = -1)

/-- The eight knight offsets `(±1, ±2)` and `(±2, ±1)`. -/
def knightOffset (dr dc : Int) : Prop :=
  ((dr = 1 ∨ dr = -1) ∧ (dc = 2 ∨ dc = -2)) ∨ ((dr = 2 ∨ dr = -2) ∧ (dc = 1 ∨ dc = -1))

/-- The eight offsets to an adjacent square: `dr, dc ∈ {-1, 0, 1}`, not both `0`. -/
def kingOffset (dr dc : Int) : Prop :=
  (dr = -1 ∨ dr = 0 ∨ dr = 1) ∧ (dc = -1 ∨ dc = 0 ∨ dc = 1) ∧ ¬ (dr = 0 ∧ dc = 0)

/-- All tiles-to-be on the rays of the given directions, blocked or not. -/
def lineCandidates (row col : Int) (directions : List Direction) : List Tile :=
  directions.flatMap (rayTiles row col)

/-- All targets of the given offsets, free or not. -/
def stepCandidates (row col : Int) (directions : List Direction) : List Tile :=
  directions.map fun d => mkTile (row + d.dr) (col + d.dc)

/-- Square `(row2, col2)` is `k ≥ 1` steps from `(row, col)` along `(dr, dc)` and
every square of the ray up to and including it is on the board and unoccupied. -/
def rayReaches (pieces : List Piece) (row col dr dc row2 col2 : Int) : Prop :=
  ∃ k : Nat, 1 ≤ k ∧ row2 = row + k * dr ∧ col2 = col + k * dc ∧
    ∀ j : Nat, 1 ≤ j → j ≤ k →
      inBounds (row + j * dr) (col + j * dc) ∧
        isOccupied pieces (row + j * dr) (col + j * dc) = false

/-- What a piece is and where it stands, without its identity. -/
def placement (pieces : List Piece) : List (Vector3 × Metadata) :=
  pieces.map fun p => (p.position, p.metadata)

/-- Closed form of the list `showValidMoves` leaves in `validMoves` for an
arbitrary piece: empty when the piece stands on no tile. -/
def movesFor (pieces : List Piece) (piece : Piece) : List Tile :=
  match tiles.flatten.find? (fun tile =>
      tile.position.x == piece.position.x && tile.position.z == piece.position.z) with
  | none => []
  | some t => movesOf pieces piece.metadata t.row t.col

/-- The (row, col) square a piece stands on, as `isOccupied` computes it. -/
def squareOf (piece : Piece) : Int × Int := (pieceRow piece, pieceCol piece)

/-- The bookkeeping that every reachable state satisfies. -/
structure Inv (s : State) : Prop where
  idsNodup : (s.pieces.map fun p => p.id).Nodup
  squaresNodup : (s.pieces.map squareOf).Nodup
  count : s.pieces.length = 32
  idsFresh : ∀ p ∈ s.pieces, p.id < s.nextId
  selFresh : ∀ sel, s.selectedPiece = some sel → sel < s.nextId
  movesGenuine : ∀ t ∈ s.validMoves, t = mkTile t.row t.col
  movesFree : ∀ sel, s.selectedPiece = some sel → (∃ p ∈ s.pieces, p.id = sel) →
    ∀ t ∈ s.validMoves, isOccupied s.pieces t.row t.col = false

/-! ## Basic facts about tiles and rounding -/

theorem tileAt_of_inBounds {row col : Int} (h : inBounds row col) :
    tileAt row col = some (mkTile row col) := by
  obtain ⟨h1, h2, h3, h4⟩ := h
  simp only [boardSize] at h2 h4
  interval_cases row <;> interval_cases col <;> rfl

theorem highlightTile_of_inBounds {row col : Int} (h : inBounds row col) (vm : List Tile) :
    highlightTile vm row col = .ok (vm ++ [mkTile row col]) := by
  simp [highlightTile, tileAt_of_inBounds h]

theorem mathRound_tile_x (row col : Int) :
    mathRound ((mkTile row col).position.x + boardSize - 1) = row := by
  simp only [mathRound, mkTile, boardSize]; omega

theorem mathRound_tile_z (row col : Int) :
    mathRound ((mkTile row col).position.z + boardSize - 1) = col := by
  simp only [mathRound, mkTile, boardSize]; omega

theorem tiles_flatten_spec :
    ∀ t ∈ tiles.flatten, inBounds t.row t.col ∧ t = mkTile t.row t.col := by
  decide

theorem find_currentTile {row col : Int} (h : inBounds row col) (x z : Int)
    (hx : x = (mkTile row col).position.x) (hz : z = (mkTile row col).position.z) :
    tiles.flatten.find? (fun tile => tile.position.x == x && tile.position.z == z)
      = some (mkTile row col) := by
  obtain ⟨h1, h2, h3, h4⟩ := h
  simp only [boardSize] at h2 h4
  subst hx hz
  interval_cases row <;> interval_cases col <;> rfl

theorem free_iff (pieces : List Piece) (t : Tile) :
    free pieces t = true ↔ inBounds t.row t.col ∧ isOccupied pieces t.row t.col = false := by
  simp [free]

/-! ## Closed forms of the highlight loops -/

theorem highlightMoves_eq (pieces : List Piece) (row col : Int) (directions : List Direction) :
    ∀ vm, highlightMoves pieces row col directions vm
      = .ok (vm ++ stepMoves pieces row col directions) := by
  induction directions with
  | nil => intro vm; simp [highlightMoves, stepMoves, pure, Except.pure]
  | cons d ds ih =>
    intro vm
    have ih2 : ∀ vm, List.foldlM _ vm ds = _ := ih
    simp only [highlightMoves, List.foldlM_cons]
    by_cases hf : free pieces (mkTile (row + d.dr) (col + d.dc)) = true
    · have hb := (free_iff _ _).1 hf
      simp only [mkTile] at hb
      have hb1 := hb.1
      simp only [inBounds] at hb1
      rw [if_pos (by simp [hb.2]; omega)]
      rw [highlightTile_of_inBounds hb.1]
      simp only [bind, Except.bind]
      rw [ih2]
      simp [stepMoves, List.filter_cons, hf]
    · have hb := (free_iff _ _).not.1 hf
      simp only [mkTile, inBounds] at hb
      rw [if_neg (by intro hc; apply hb; simp at hc; refine ⟨?_, by simpa using hc.2.2.2.2⟩; omega)]
      simp only [bind, Except.bind]
      rw [ih2]
      simp [stepMoves, List.filter_cons, hf]

theorem lineWalk_eq (pieces : List Piece) (dr dc : Int) :
    ∀ (j fuel : Nat) (row col : Int) (vm : List Tile), j < fuel →
      ¬ inBounds (row + j * dr) (col + j * dc) →
      lineWalk pieces dr dc fuel row col vm
        = .ok (vm ++ ((List.range j).map fun k : Nat =>
            mkTile (row + k * dr) (col + k * dc)).takeWhile (free pieces)) := by
  intro j
  induction j with
  | zero =>
    intro fuel row col vm hlt hout
    obtain ⟨f, rfl⟩ : ∃ f, fuel = f + 1 := ⟨fuel - 1, by omega⟩
    simp only [inBounds, Nat.cast_zero, zero_mul, add_zero] at hout
    simp only [lineWalk]
    rw [if_neg (by intro hc; apply hout; omega)]
    simp
  | succ j ih =>
    intro fuel row col vm hlt hout
    obtain ⟨f, rfl⟩ : ∃ f, fuel = f + 1 := ⟨fuel - 1, by omega⟩
    have hout2 : ¬ inBounds (row + dr + j * dr) (col + dc + j * dc) := by
      intro hc; apply hout
      have e1 : row + ((j + 1 : Nat) : Int) * dr = row + dr + j * dr := by push_cast; ring
      have e2 : col + ((j + 1 : Nat) : Int) * dc = col + dc + j * dc := by push_cast; ring
      rw [e1, e2]; exact hc
    have hmap : (List.range (j + 1)).map (fun k : Nat => mkTile (row + k * dr) (col + k * dc))
        = mkTile row col :: (List.range j).map
            (fun k : Nat => mkTile (row + dr + k * dr) (col + dc + k * dc)) := by
      rw [List.range_succ_eq_map, List.map_cons, List.map_map]
      congr 1
      · simp
      · apply List.map_congr_left
        intro k _
        simp only [Function.comp, Nat.succ_eq_add_one]
        congr 1 <;> (push_cast; ring)
    rw [hmap]
    simp only [lineWalk]
    by_cases hin : inBounds row col
    · have hin2 := hin
      simp only [inBounds] at hin2
      rw [if_pos (by omega)]
      by_cases hocc : isOccupied pieces row col = true
      · rw [if_pos hocc]
        have hf : free pieces (mkTile row col) = false := by
          simp [free, mkTile, hocc]
        simp [List.takeWhile_cons, hf]
      · rw [if_neg hocc, highlightTile_of_inBounds hin]
        have hf : free pieces (mkTile row col) = true := by
          rw [free_iff]; exact ⟨hin, by simpa using hocc⟩
        simp only []
        rw [ih f (row + dr) (col + dc) _ (by omega) hout2]
        simp [List.takeWhile_cons, hf]
    · have hin2 := hin
      simp only [inBounds] at hin2
      rw [if_neg (by intro hc; apply hin2; omega)]
      have hf : free pieces (mkTile row col) = false := by
        have := (free_iff pieces (mkTile row col)).not.2 (fun h => hin h.1)
        simpa using this
      simp [List.takeWhile_cons, hf]

theorem lineWalk_ray (pieces : List Piece) {row col : Int} (h : inBounds row col)
    {d : Direction} (hd : unitDirection d) {fuel : Nat} (hfuel : 8 ≤ fuel) (vm : List Tile) :
    lineWalk pieces d.dr d.dc fuel (row + d.dr) (col + d.dc) vm
      = .ok (vm ++ (rayTiles row col d).takeWhile (free pieces)) := by
  have hout : ¬ inBounds (row + d.dr + (7 : Nat) * d.dr) (col + d.dc + (7 : Nat) * d.dc) := by
    simp only [inBounds, boardSize] at h ⊢
    simp only [unitDirection] at hd
    push_cast
    omega
  rw [lineWalk_eq pieces d.dr d.dc 7 fuel _ _ vm (by omega) hout]
  have : (List.range 7).map (fun k : Nat => mkTile (row + d.dr + k * d.dr) (col + d.dc + k * d.dc))
      = rayTiles row col d := by
    unfold rayTiles
    apply List.map_congr_left
    intro k _
    congr 1 <;> ring
  rw [this]

theorem highlightLineMoves_eq (pieces : List Piece) {row col : Int} (h : inBounds row col)
    {fuel : Nat} (hfuel : 8 ≤ fuel) (directions : List Direction) :
    (∀ d ∈ directions, unitDirection d) →
    ∀ vm, highlightLineMoves pieces fuel row col directions vm
      = .ok (vm ++ lineMoves pieces row col directions) := by
  induction directions with
  | nil => intro _ vm; simp [highlightLineMoves, lineMoves, pure, Except.pure]
  | cons d ds ih =>
    intro hds vm
    have ih2 : ∀ vm, List.foldlM _ vm ds = _ := ih (fun e he => hds e (List.mem_cons_of_mem _ he))
    simp only [highlightLineMoves, List.foldlM_cons]
    rw [lineWalk_ray pieces h (hds d (List.mem_cons_self _ _)) hfuel]
    simp only [bind, Except.bind]
    rw [ih2]
    simp [lineMoves, List.flatMap_cons]

theorem unit_queenDirections : ∀ d ∈ queenDirections, unitDirection d := by
  decide

theorem unit_rookDirections : ∀ d ∈ rookDirections, unitDirection d := by
  decide

theorem unit_bishopDirections : ∀ d ∈ bishopDirections, unitDirection d := by
  decide

theorem showValidMoves_eq {fuel : Nat} (hfuel : 8 ≤ fuel) (s : State) (piece : Piece)
    {row col : Int} (h : inBounds row col) (hp : standsOn piece row col) :
    showValidMoves fuel s piece
      = .ok { s with validMoves := movesOf s.pieces piece.metadata row col } := by
  unfold showValidMoves
  simp only [clearHighlights]
  rw [find_currentTile h _ _ hp.1 hp.2]
  simp only [mathRound_tile_x, mathRound_tile_z, movesOf]
  by_cases h1 : piece.metadata.type = "pawn"
  · simp only [if_pos h1]
    have hin := h
    simp only [inBounds] at hin
    by_cases hf : free s.pieces (mkTile row (col + pawnDir piece.metadata.color)) = true
    · have hb := (free_iff _ _).1 hf
      simp only [mkTile, inBounds] at hb
      have hb1 := hb.1
      have hb2 := hb.2
      simp only [pawnDir] at hb1 hb2
      rw [if_pos ⟨by omega, by omega, by simp [hb2]⟩]
      rw [highlightTile_of_inBounds (by simp only [inBounds]; omega)]
      simp only [pawnDir] at hf
      simp [stepMoves, List.filter_cons, hf, Except.map, pawnDir]
    · have hb := (free_iff _ _).not.1 hf
      simp only [mkTile, inBounds, pawnDir] at hb
      rw [if_neg (by
        intro hc; apply hb
        exact ⟨⟨hin.1, hin.2.1, hc.1, hc.2.1⟩, by simpa using hc.2.2⟩)]
      simp only [pawnDir] at hf
      simp [stepMoves, List.filter_cons, hf, pawnDir]
  · simp only [if_neg h1]
    by_cases h2 : piece.metadata.type = "rook"
    · simp only [if_pos h2]
      rw [highlightLineMoves_eq s.pieces h hfuel _ unit_rookDirections]
      simp [Except.map]
    · simp only [if_neg h2]
      by_cases h3 : piece.metadata.type = "bishop"
      · simp only [if_pos h3]
        rw [highlightLineMoves_eq s.pieces h hfuel _ unit_bishopDirections]
        simp [Except.map]
      · simp only [if_neg h3]
        by_cases h4 : piece.metadata.type = "queen"
        · simp only [if_pos h4]
          rw [highlightLineMoves_eq s.pieces h hfuel _ unit_queenDirections]
          simp [Except.map]
        · simp only [if_neg h4]
          by_cases h5 : piece.metadata.type = "king"
          · simp only [if_pos h5]
            rw [highlightMoves_eq]
            simp [Except.map]
          · simp only [if_neg h5]
            by_cases h6 : piece.metadata.type = "knight"
            · simp only [if_pos h6]
              rw [highlightMoves_eq]
              simp [Except.map]
            · simp only [if_neg h6]

/-! ## Membership in the closed forms -/

theorem mem_takeWhile_map_range {α : Type} (p : α → Bool) :
    ∀ (n : Nat) (f : Nat → α) (t : α),
      t ∈ ((List.range n).map f).takeWhile p ↔
        ∃ k : Nat, k < n ∧ t = f k ∧ ∀ j : Nat, j ≤ k → p (f j) = true := by
  intro n
  induction n with
  | zero => intro f t; simp
  | succ n ih =>
    intro f t
    rw [List.range_succ_eq_map, List.map_cons, List.map_map, List.takeWhile_cons]
    by_cases h0 : p (f 0) = true
    · rw [if_pos h0, List.mem_cons, ih]
      constructor
      · rintro (rfl | ⟨k, hk, rfl, hall⟩)
        · exact ⟨0, by omega, rfl, fun j hj => by
            have : j = 0 := by omega
            subst this; exact h0⟩
        · refine ⟨k + 1, by omega, rfl, fun j hj => ?_⟩
          rcases j with _ | j
          · exact h0
          · exact hall j (by omega)
      · rintro ⟨k, hk, rfl, hall⟩
        rcases k with _ | k
        · exact Or.inl rfl
        · exact Or.inr ⟨k, by omega, rfl, fun j hj => hall (j + 1) (by omega)⟩
    · rw [if_neg h0]
      constructor
      · intro h; simp at h
      · rintro ⟨k, _, _, hall⟩
        exact absurd (hall 0 (by omega)) h0

theorem movesOf_free (pieces : List Piece) (m : Metadata) (row col : Int) :
    ∀ t ∈ movesOf pieces m row col, free pieces t = true := by
  have hline : ∀ ds, ∀ t ∈ lineMoves pieces row col ds, free pieces t = true := by
    intro ds t ht
    simp only [lineMoves, List.mem_flatMap] at ht
    obtain ⟨d, _, hd⟩ := ht
    exact List.mem_takeWhile_imp hd
  have hstep : ∀ ds, ∀ t ∈ stepMoves pieces row col ds, free pieces t = true := by
    intro ds t ht
    simp only [stepMoves, List.mem_filter] at ht
    exact ht.2
  intro t ht
  unfold movesOf at ht
  split_ifs at ht
  · exact hstep _ t ht
  · exact hline _ t ht
  · exact hline _ t ht
  · exact hline _ t ht
  · exact hstep _ t ht
  · exact hstep _ t ht
  · simp at ht

theorem mem_lineMoves_iff (pieces : List Piece) {row col : Int} (h : inBounds row col)
    (directions : List Direction) (hu : ∀ d ∈ directions, unitDirection d) (row2 col2 : Int) :
    (∃ t ∈ lineMoves pieces row col directions, t.row = row2 ∧ t.col = col2) ↔
      ∃ d ∈ directions, ∃ k : Nat, 1 ≤ k ∧ row2 = row + k * d.dr ∧ col2 = col + k * d.dc ∧
        ∀ j : Nat, 1 ≤ j → j ≤ k →
          inBounds (row + j * d.dr) (col + j * d.dc) ∧
            isOccupied pieces (row + j * d.dr) (col + j * d.dc) = false := by
  constructor
  · rintro ⟨t, ht, rfl, rfl⟩
    simp only [lineMoves, List.mem_flatMap, rayTiles] at ht
    obtain ⟨d, hd, ht⟩ := ht
    rw [mem_takeWhile_map_range] at ht
    obtain ⟨k, _, rfl, hall⟩ := ht
    refine ⟨d, hd, k + 1, by omega, by simp [mkTile], by simp [mkTile], ?_⟩
    intro j hj1 hj2
    obtain ⟨i, rfl⟩ : ∃ i, j = i + 1 := ⟨j - 1, by omega⟩
    have := (free_iff _ _).1 (hall i (by omega))
    simpa [mkTile] using this
  · rintro ⟨d, hd, k, hk1, rfl, rfl, hall⟩
    refine ⟨mkTile (row + k * d.dr) (col + k * d.dc), ?_, rfl, rfl⟩
    simp only [lineMoves, List.mem_flatMap, rayTiles]
    refine ⟨d, hd, ?_⟩
    rw [mem_takeWhile_map_range]
    obtain ⟨i, rfl⟩ : ∃ i, k = i + 1 := ⟨k - 1, by omega⟩
    have hi : i < 7 := by
      have hb := (hall (i + 1) (by omega) (by omega)).1
      have hud := hu d hd
      simp only [inBounds, boardSize] at hb h
      simp only [unitDirection] at hud
      push_cast at hb
      rcases hud with ⟨h1 | h1 | h1, h2 | h2 | h2, h3⟩ <;> simp only [h1, h2] at hb h3 <;>
        first | omega | exact absurd ⟨trivial, trivial⟩ h3
    refine ⟨i, hi, by push_cast; rfl, ?_⟩
    intro j hj
    rw [free_iff]
    have := hall (j + 1) (by omega) (by omega)
    simpa [mkTile] using this

theorem mem_stepMoves_iff (pieces : List Piece) (row col : Int)
    (directions : List Direction) (row2 col2 : Int) :
    (∃ t ∈ stepMoves pieces row col directions, t.row = row2 ∧ t.col = col2) ↔
      ∃ d ∈ directions, row2 = row + d.dr ∧ col2 = col + d.dc ∧
        inBounds row2 col2 ∧ isOccupied pieces row2 col2 = false := by
  constructor
  · rintro ⟨t, ht, rfl, rfl⟩
    simp only [stepMoves, List.mem_filter, List.mem_map] at ht
    obtain ⟨⟨d, hd, rfl⟩, hf⟩ := ht
    have := (free_iff _ _).1 hf
    exact ⟨d, hd, rfl, rfl, this.1, this.2⟩
  · rintro ⟨d, hd, rfl, rfl, hb, ho⟩
    refine ⟨mkTile (row + d.dr) (col + d.dc), ?_, rfl, rfl⟩
    simp only [stepMoves, List.mem_filter, List.mem_map]
    exact ⟨⟨d, hd, rfl⟩, (free_iff _ _).2 ⟨hb, ho⟩⟩

theorem mem_rookDirections (dr dc : Int) :
    (⟨dr, dc⟩ : Direction) ∈ rookDirections ↔ orthogonalUnit dr dc := by
  simp only [rookDirections, orthogonalUnit, List.mem_cons, Direction.mk.injEq,
    List.mem_singleton, List.not_mem_nil, or_false]
  omega

theorem mem_bishopDirections (dr dc : Int) :
    (⟨dr, dc⟩ : Direction) ∈ bishopDirections ↔ diagonalUnit dr dc := by
  simp only [bishopDirections, diagonalUnit, List.mem_cons, Direction.mk.injEq,
    List.mem_singleton, List.not_mem_nil, or_false]
  omega

theorem mem_knightDirections (dr dc : Int) :
    (⟨dr, dc⟩ : Direction) ∈ knightDirections ↔ knightOffset dr dc := by
  simp only [knightDirections, knightOffset, List.mem_cons, Direction.mk.injEq,
    List.mem_singleton, List.not_mem_nil, or_false]
  omega

theorem mem_kingDirections (dr dc : Int) :
    (⟨dr, dc⟩ : Direction) ∈ kingDirections ↔ kingOffset dr dc := by
  simp only [kingDirections, kingOffset, List.mem_cons, Direction.mk.injEq,
    List.mem_singleton, List.not_mem_nil, or_false]
  omega

theorem exists_direction_iff (ds : List Direction) (P : Int → Int → Prop)
    (hds : ∀ dr dc, (⟨dr, dc⟩ : Direction) ∈ ds ↔ P dr dc) (Q : Int → Int → Prop) :
    (∃ d ∈ ds, Q d.dr d.dc) ↔ ∃ dr dc, P dr dc ∧ Q dr dc := by
  constructor
  · rintro ⟨⟨dr, dc⟩, hd, hq⟩
    exact ⟨dr, dc, (hds dr dc).1 hd, hq⟩
  · rintro ⟨dr, dc, hp, hq⟩
    exact ⟨⟨dr, dc⟩, (hds dr dc).2 hp, hq⟩

theorem showValidMoves_fuel_irrelevant (fuel : Nat) (s : State) (piece : Piece)
    (h1 : piece.metadata.type ≠ "rook") (h2 : piece.metadata.type ≠ "bishop")
    (h3 : piece.metadata.type ≠ "queen") :
    showValidMoves fuel s piece = showValidMoves 8 s piece := by
  unfold showValidMoves
  simp only [if_neg h1, if_neg h2, if_neg h3]

theorem lineMoves_sublist (pieces : List Piece) (row col : Int) (ds : List Direction) :
    (lineMoves pieces row col ds).Sublist (lineCandidates row col ds) := by
  induction ds with
  | nil => simp [lineMoves, lineCandidates]
  | cons d ds ih =>
    simp only [lineMoves, lineCandidates, List.flatMap_cons] at ih ⊢
    exact List.Sublist.append (List.takeWhile_sublist _) ih

theorem stepMoves_sublist (pieces : List Piece) (row col : Int) (ds : List Direction) :
    (stepMoves pieces row col ds).Sublist (stepCandidates row col ds) :=
  List.filter_sublist _

theorem lineCandidates_keys (row col : Int) (ds : List Direction) :
    (lineCandidates row col ds).map (fun t => (t.row, t.col))
      = ((lineCandidates 0 0 ds).map fun t => (t.row, t.col)).map
          fun p => (row + p.1, col + p.2) := by
  induction ds with
  | nil => simp [lineCandidates]
  | cons d ds ih =>
    simp only [lineCandidates, List.flatMap_cons, List.map_append] at ih ⊢
    rw [ih]
    congr 1
    simp [rayTiles, mkTile]

theorem shift_injective (row col : Int) :
    Function.Injective (fun p : Int × Int => (row + p.1, col + p.2)) := by
  rintro ⟨a, b⟩ ⟨a2, b2⟩ h
  simp only [Prod.mk.injEq] at h ⊢
  omega

theorem queenCandidates_nodup (row col : Int) :
    ((lineCandidates row col queenDirections).map fun t => (t.row, t.col)).Nodup ∧
      ∀ t ∈ lineCandidates row col queenDirections, ¬ (t.row = row ∧ t.col = col) := by
  have hkeys := lineCandidates_keys row col queenDirections
  have h0 : ((lineCandidates 0 0 queenDirections).map fun t => (t.row, t.col)).Nodup := by
    decide
  have h1 : ((0 : Int), (0 : Int)) ∉
      (lineCandidates 0 0 queenDirections).map fun t => (t.row, t.col) := by
    decide
  constructor
  · rw [hkeys]
    exact h0.map (shift_injective row col)
  · intro t ht hc
    have hm : (t.row, t.col) ∈ (lineCandidates row col queenDirections).map
        (fun t => (t.row, t.col)) := List.mem_map_of_mem _ ht
    rw [hkeys, List.mem_map] at hm
    obtain ⟨⟨a, b⟩, hab, he⟩ := hm
    simp only [Prod.mk.injEq] at he
    have ha : a = 0 := by omega
    have hb : b = 0 := by omega
    subst ha hb
    exact h1 hab

theorem stepCandidates_nodup (row col : Int) (ds : List Direction) (hnd : ds.Nodup)
    (h0 : (⟨0, 0⟩ : Direction) ∉ ds) :
    ((stepCandidates row col ds).map fun t => (t.row, t.col)).Nodup ∧
      ∀ t ∈ stepCandidates row col ds, ¬ (t.row = row ∧ t.col = col) := by
  constructor
  · simp only [stepCandidates, List.map_map]
    refine hnd.map ?_
    rintro ⟨a, b⟩ ⟨a2, b2⟩ h
    simp only [Function.comp, mkTile, Prod.mk.injEq] at h
    simp only [Direction.mk.injEq]
    omega
  · intro t ht hc
    simp only [stepCandidates, List.mem_map] at ht
    obtain ⟨⟨a, b⟩, hd, rfl⟩ := ht
    simp only [mkTile] at hc
    have ha : a = 0 := by omega
    have hb : b = 0 := by omega
    subst ha hb
    exact h0 hd

theorem queenDirections_eq : queenDirections = rookDirections ++ bishopDirections := rfl

theorem lineCandidates_append (row col : Int) (ds es : List Direction) :
    lineCandidates row col (ds ++ es) = lineCandidates row col ds ++ lineCandidates row col es := by
  simp [lineCandidates, List.flatMap_append]

theorem lineMoves_append (pieces : List Piece) (row col : Int) (ds es : List Direction) :
    lineMoves pieces row col (ds ++ es)
      = lineMoves pieces row col ds ++ lineMoves pieces row col es := by
  simp [lineMoves, List.flatMap_append]

theorem movesOf_sublist (pieces : List Piece) (m : Metadata) (row col : Int) :
    (movesOf pieces m row col).Sublist (lineCandidates row col queenDirections) ∨
    (movesOf pieces m row col).Sublist (stepCandidates row col kingDirections) ∨
    (movesOf pieces m row col).Sublist (stepCandidates row col knightDirections) ∨
    (movesOf pieces m row col).Sublist (stepCandidates row col [⟨0, pawnDir m.color⟩]) := by
  unfold movesOf
  split_ifs
  · exact Or.inr (Or.inr (Or.inr (stepMoves_sublist _ _ _ _)))
  · refine Or.inl ((lineMoves_sublist _ _ _ _).trans ?_)
    rw [queenDirections_eq, lineCandidates_append]
    exact List.sublist_append_left _ _
  · refine Or.inl ((lineMoves_sublist _ _ _ _).trans ?_)
    rw [queenDirections_eq, lineCandidates_append]
    exact List.sublist_append_right _ _
  · exact Or.inl (lineMoves_sublist _ _ _ _)
  · exact Or.inr (Or.inl (stepMoves_sublist _ _ _ _))
  · exact Or.inr (Or.inr (Or.inl (stepMoves_sublist _ _ _ _)))
  · exact Or.inl (List.nil_sublist _)

theorem movesOf_nodup (pieces : List Piece) (m : Metadata) (row col : Int) :
    ((movesOf pieces m row col).map fun t => (t.row, t.col)).Nodup ∧
      ∀ t ∈ movesOf pieces m row col, ¬ (t.row = row ∧ t.col = col) := by
  have hpawn : ((stepCandidates row col [⟨0, pawnDir m.color⟩]).map
        fun t => (t.row, t.col)).Nodup ∧
      ∀ t ∈ stepCandidates row col [⟨0, pawnDir m.color⟩], ¬ (t.row = row ∧ t.col = col) := by
    apply stepCandidates_nodup
    · simp
    · simp only [List.mem_singleton, Direction.mk.injEq, pawnDir]
      split_ifs <;> simp
  have hking := stepCandidates_nodup row col kingDirections (by decide) (by decide)
  have hknight := stepCandidates_nodup row col knightDirections (by decide) (by decide)
  have hqueen := queenCandidates_nodup row col
  rcases movesOf_sublist pieces m row col with h | h | h | h
  · exact ⟨hqueen.1.sublist (h.map _), fun t ht => hqueen.2 t (h.subset ht)⟩
  · exact ⟨hking.1.sublist (h.map _), fun t ht => hking.2 t (h.subset ht)⟩
  · exact ⟨hknight.1.sublist (h.map _), fun t ht => hknight.2 t (h.subset ht)⟩
  · exact ⟨hpawn.1.sublist (h.map _), fun t ht => hpawn.2 t (h.subset ht)⟩

theorem movesOf_rook (pieces : List Piece) (m : Metadata) (row col : Int)
    (h : m.type = "rook") : movesOf pieces m row col = lineMoves pieces row col rookDirections := by
  simp [movesOf, h]

theorem movesOf_bishop (pieces : List Piece) (m : Metadata) (row col : Int)
    (h : m.type = "bishop") :
    movesOf pieces m row col = lineMoves pieces row col bishopDirections := by
  simp [movesOf, h]

theorem movesOf_queen (pieces : List Piece) (m : Metadata) (row col : Int)
    (h : m.type = "queen") :
    movesOf pieces m row col = lineMoves pieces row col queenDirections := by
  simp [movesOf, h]

theorem movesOf_king (pieces : List Piece) (m : Metadata) (row col : Int)
    (h : m.type = "king") :
    movesOf pieces m row col = stepMoves pieces row col kingDirections := by
  simp [movesOf, h]

theorem movesOf_knight (pieces : List Piece) (m : Metadata) (row col : Int)
    (h : m.type = "knight") :
    movesOf pieces m row col = stepMoves pieces row col knightDirections := by
  simp [movesOf, h]

theorem movesOf_pawn (pieces : List Piece) (m : Metadata) (row col : Int)
    (h : m.type = "pawn") :
    movesOf pieces m row col = stepMoves pieces row col [⟨0, pawnDir m.color⟩] := by
  simp [movesOf, h]

theorem stepMoves_length_le (pieces : List Piece) (row col : Int) (ds : List Direction) :
    (stepMoves pieces row col ds).length ≤ ds.length := by
  unfold stepMoves
  exact (List.length_filter_le _ _).trans (by simp)

/-! ## The claims about `showValidMoves` -/

/-- C1: for every list of pieces and every piece standing on an in-bounds
square, `showValidMoves` returns, leaves the pieces untouched, and every tile
it leaves in `validMoves` is on the board and not occupied with respect to the
same list of pieces. -/
theorem showValidMoves_inBounds_unoccupied (fuel : Nat) (hfuel : 8 ≤ fuel) (s : State)
    (piece : Piece) (row col : Int) (h : inBounds row col) (hp : standsOn piece row col) :
    ∃ s2, showValidMoves fuel s piece = .ok s2 ∧ s2.pieces = s.pieces ∧
      ∀ t ∈ s2.validMoves,
        (0 ≤ t.row ∧ t.row < 8 ∧ 0 ≤ t.col ∧ t.col < 8) ∧
          isOccupied s.pieces t.row t.col = false := by
  refine ⟨_, showValidMoves_eq hfuel s piece h hp, rfl, ?_⟩
  intro t ht
  have := (free_iff _ _).1 (movesOf_free _ _ _ _ t ht)
  simpa [inBounds, boardSize] using this

/-- Instance of C1: a rook on square (3, 3) amid the initial position; the call
leaves ten tiles in `validMoves`, listed here, and each of them is on the board
and unoccupied. -/
theorem showValidMoves_inBounds_unoccupied_witness :
    (∃ s2, showValidMoves 8 initialState
        { id := 40, position := ⟨-1, 0, -1⟩, metadata := ⟨"rook", "white"⟩ } = .ok s2 ∧
      s2.pieces = initialState.pieces ∧
      ∀ t ∈ s2.validMoves,
        (0 ≤ t.row ∧ t.row < 8 ∧ 0 ≤ t.col ∧ t.col < 8) ∧
          isOccupied initialState.pieces t.row t.col = false) ∧
    (showValidMoves 8 initialState
        { id := 40, position := ⟨-1, 0, -1⟩, metadata := ⟨"rook", "white"⟩ }).toOption.map
      (fun s2 => s2.validMoves.map fun t => (t.row, t.col))
      = some [(4, 3), (5, 3), (6, 3), (7, 3), (2, 3), (1, 3), (0, 3), (3, 4), (3, 5), (3, 2)] :=
  ⟨showValidMoves_inBounds_unoccupied 8 (by decide) initialState _ 3 3 (by decide) (by decide),
    by decide⟩

/-- C2: for a rook (`D` = the four orthogonal unit vectors) and for a bishop
(`D` = the four diagonal unit vectors) on an in-bounds square, under any
occupancy, `showValidMoves` returns and a square is among the tiles of
`validMoves` if and only if it lies `k ≥ 1` steps along a direction of `D` with
every square of the ray up to and including it on the board and unoccupied. -/
theorem sliding_moves_iff (fuel : Nat) (hfuel : 8 ≤ fuel) (s : State)
    (piece : Piece) (row col : Int) (h : inBounds row col) (hp : standsOn piece row col)
    (D : Int → Int → Prop)
    (hD : (piece.metadata.type = "rook" ∧ D = orthogonalUnit) ∨
      (piece.metadata.type = "bishop" ∧ D = diagonalUnit)) :
    ∃ s2, showValidMoves fuel s piece = .ok s2 ∧
      ∀ row2 col2 : Int,
        (∃ t ∈ s2.validMoves, t.row = row2 ∧ t.col = col2) ↔
          ∃ dr dc, D dr dc ∧ rayReaches s.pieces row col dr dc row2 col2 := by
  refine ⟨_, showValidMoves_eq hfuel s piece h hp, ?_⟩
  intro row2 col2
  rcases hD with ⟨ht, rfl⟩ | ⟨ht, rfl⟩
  · simp only [movesOf_rook _ _ _ _ ht]
    rw [mem_lineMoves_iff s.pieces h _ unit_rookDirections]
    exact exists_direction_iff rookDirections orthogonalUnit mem_rookDirections
      (fun dr dc => rayReaches s.pieces row col dr dc row2 col2)
  · simp only [movesOf_bishop _ _ _ _ ht]
    rw [mem_lineMoves_iff s.pieces h _ unit_bishopDirections]
    exact exists_direction_iff bishopDirections diagonalUnit mem_bishopDirections
      (fun dr dc => rayReaches s.pieces row col dr dc row2 col2)

/-- Instance of C2: a bishop on square (3, 4) amid the initial position. -/
theorem sliding_moves_iff_witness :
    ∃ s2, showValidMoves 8 initialState
        { id := 40, position := ⟨-1, 0, 1⟩, metadata := ⟨"bishop", "white"⟩ } = .ok s2 ∧
      ∀ row2 col2 : Int,
        (∃ t ∈ s2.validMoves, t.row = row2 ∧ t.col = col2) ↔
          ∃ dr dc, diagonalUnit dr dc ∧ rayReaches initialState.pieces 3 4 dr dc row2 col2 :=
  sliding_moves_iff 8 (by decide) initialState _ 3 4 (by decide) (by decide) diagonalUnit
    (Or.inr ⟨rfl, rfl⟩)

/-- C3: for a knight on a square, under any occupancy, `showValidMoves` returns
and the tiles of `validMoves` are exactly the squares `(row + dr, col + dc)`,
over the eight offsets `(±1, ±2)`, `(±2, ±1)`, that are on the board and
unoccupied, at most eight of them; the same for a king with the eight adjacent
offsets. -/
theorem stepping_moves_exact (fuel : Nat) (s : State)
    (piece : Piece) (row col : Int) (h : inBounds row col) (hp : standsOn piece row col)
    (offset : Int → Int → Prop)
    (hO : (piece.metadata.type = "knight" ∧ offset = knightOffset) ∨
      (piece.metadata.type = "king" ∧ offset = kingOffset)) :
    ∃ s2, showValidMoves fuel s piece = .ok s2 ∧ s2.validMoves.length ≤ 8 ∧
      ∀ row2 col2 : Int,
        (∃ t ∈ s2.validMoves, t.row = row2 ∧ t.col = col2) ↔
          ∃ dr dc, offset dr dc ∧ row2 = row + dr ∧ col2 = col + dc ∧
            inBounds row2 col2 ∧ isOccupied s.pieces row2 col2 = false := by
  have hfuel : showValidMoves fuel s piece = showValidMoves 8 s piece := by
    apply showValidMoves_fuel_irrelevant <;> rcases hO with ⟨ht, _⟩ | ⟨ht, _⟩ <;>
      rw [ht] <;> decide
  refine ⟨_, hfuel.trans (showValidMoves_eq (le_refl 8) s piece h hp), ?_, ?_⟩
  · rcases hO with ⟨ht, rfl⟩ | ⟨ht, rfl⟩
    · simp only [movesOf_knight _ _ _ _ ht]
      exact stepMoves_length_le _ _ _ _
    · simp only [movesOf_king _ _ _ _ ht]
      exact stepMoves_length_le _ _ _ _
  · intro row2 col2
    rcases hO with ⟨ht, rfl⟩ | ⟨ht, rfl⟩
    · simp only [movesOf_knight _ _ _ _ ht]
      rw [mem_stepMoves_iff]
      exact exists_direction_iff knightDirections knightOffset mem_knightDirections
        (fun dr dc => row2 = row + dr ∧ col2 = col + dc ∧
          inBounds row2 col2 ∧ isOccupied s.pieces row2 col2 = false)
    · simp only [movesOf_king _ _ _ _ ht]
      rw [mem_stepMoves_iff]
      exact exists_direction_iff kingDirections kingOffset mem_kingDirections
        (fun dr dc => row2 = row + dr ∧ col2 = col + dc ∧
          inBounds row2 col2 ∧ isOccupied s.pieces row2 col2 = false)

/-- Instance of C3: the white knight on square (1, 0) of the initial position. -/
theorem stepping_moves_exact_witness :
    ∃ s2, showValidMoves 3 initialState
        { id := 20, position := ⟨-5, 1, -7⟩, metadata := ⟨"knight", "white"⟩ } = .ok s2 ∧
      s2.validMoves.length ≤ 8 ∧
      ∀ row2 col2 : Int,
        (∃ t ∈ s2.validMoves, t.row = row2 ∧ t.col = col2) ↔
          ∃ dr dc, knightOffset dr dc ∧ row2 = 1 + dr ∧ col2 = 0 + dc ∧
            inBounds row2 col2 ∧ isOccupied initialState.pieces row2 col2 = false :=
  stepping_moves_exact 3 initialState _ 1 0 (by decide) (by decide) knightOffset
    (Or.inl ⟨rfl, rfl⟩)

/-- C4: for a pawn on an in-bounds square `(row, col)`, under any occupancy,
with `dir = -1` for a white pawn and `+1` otherwise, `showValidMoves` returns
and `validMoves` is the single tile `(row, col + dir)` when
`0 ≤ col + dir < 8` and that square is unoccupied, and is empty otherwise; so
the row never changes and there is never more than one move. -/
theorem pawn_moves_exact (fuel : Nat) (s : State)
    (piece : Piece) (row col : Int) (h : inBounds row col) (hp : standsOn piece row col)
    (ht : piece.metadata.type = "pawn") (dir : Int)
    (hdir : dir = if piece.metadata.color = "white" then -1 else 1) :
    ∃ s2, showValidMoves fuel s piece = .ok s2 ∧
      s2.validMoves =
        (if 0 ≤ col + dir ∧ col + dir < 8 ∧ isOccupied s.pieces row (col + dir) = false then
          [mkTile row (col + dir)] else []) ∧
      (∀ t ∈ s2.validMoves, t.row = row ∧ t.col = col + dir) ∧
      s2.validMoves.length ≤ 1 := by
  have hfuel : showValidMoves fuel s piece = showValidMoves 8 s piece := by
    apply showValidMoves_fuel_irrelevant <;> rw [ht] <;> decide
  have hdir2 : dir = pawnDir piece.metadata.color := hdir
  have hmoves : movesOf s.pieces piece.metadata row col =
      (if 0 ≤ col + dir ∧ col + dir < 8 ∧ isOccupied s.pieces row (col + dir) = false then
        [mkTile row (col + dir)] else []) := by
    rw [movesOf_pawn _ _ _ _ ht, ← hdir2]
    have hin := h
    simp only [inBounds, boardSize] at hin
    simp only [stepMoves, List.map_cons, List.map_nil, add_zero, List.filter_cons,
      List.filter_nil]
    by_cases hf : free s.pieces (mkTile row (col + dir)) = true
    · have hb := (free_iff _ _).1 hf
      simp only [mkTile, inBounds, boardSize] at hb
      rw [if_pos hf, if_pos ⟨hb.1.2.2.1, hb.1.2.2.2, hb.2⟩]
    · have hb := (free_iff _ _).not.1 hf
      simp only [mkTile, inBounds, boardSize] at hb
      rw [if_neg hf, if_neg (fun hc => hb ⟨⟨hin.1, hin.2.1, hc.1, hc.2.1⟩, hc.2.2⟩)]
  refine ⟨_, hfuel.trans (showValidMoves_eq (le_refl 8) s piece h hp), hmoves, ?_, ?_⟩
  · intro t htm
    simp only [hmoves] at htm
    split_ifs at htm
    · simp only [List.mem_singleton] at htm
      subst htm
      exact ⟨rfl, rfl⟩
    · simp at htm
  · simp only [hmoves]
    split_ifs <;> simp

/-- Instance of C4: the white pawn on square (0, 1) of the initial position. -/
theorem pawn_moves_exact_witness :
    ∃ s2, showValidMoves 0 initialState
        { id := 0, position := ⟨-7, 1, -5⟩, metadata := ⟨"pawn", "white"⟩ } = .ok s2 ∧
      s2.validMoves =
        (if 0 ≤ (1 : Int) + (-1) ∧ (1 : Int) + (-1) < 8 ∧
            isOccupied initialState.pieces 0 (1 + (-1)) = false then
          [mkTile 0 (1 + (-1))] else []) ∧
      (∀ t ∈ s2.validMoves, t.row = 0 ∧ t.col = 1 + (-1)) ∧
      s2.validMoves.length ≤ 1 :=
  pawn_moves_exact 0 initialState _ 0 1 (by decide) (by decide) rfl (-1) (by decide)

/-- C5: for every piece whose type is none of pawn, rook, knight, bishop,
queen, king (wherever it stands, under any occupancy and for any fuel),
`showValidMoves` raises no error and leaves `validMoves` empty. -/
theorem unknown_type_no_moves (fuel : Nat) (s : State) (piece : Piece)
    (h1 : piece.metadata.type ≠ "pawn") (h2 : piece.metadata.type ≠ "rook")
    (h3 : piece.metadata.type ≠ "knight") (h4 : piece.metadata.type ≠ "bishop")
    (h5 : piece.metadata.type ≠ "queen") (h6 : piece.metadata.type ≠ "king") :
    ∃ s2, showValidMoves fuel s piece = .ok s2 ∧ s2.validMoves = [] ∧
      s2.pieces = s.pieces := by
  unfold showValidMoves
  simp only [if_neg h1, if_neg h2, if_neg h3, if_neg h4, if_neg h5, if_neg h6, clearHighlights]
  split
  · exact ⟨_, rfl, rfl, rfl⟩
  · exact ⟨_, rfl, rfl, rfl⟩

/-- Instance of C5: a piece whose type is the string "archbishop". -/
theorem unknown_type_no_moves_witness :
    ∃ s2, showValidMoves 0 initialState
        { id := 99, position := ⟨-1, 1, 1⟩, metadata := ⟨"archbishop", "white"⟩ } = .ok s2 ∧
      s2.validMoves = [] ∧ s2.pieces = initialState.pieces :=
  unknown_type_no_moves 0 initialState _ (by decide) (by decide) (by decide) (by decide)
    (by decide) (by decide)

/-- C6: on every in-bounds square and under every occupancy, the move sequence
`showValidMoves` produces for a queen is the sequence it produces for a rook on
that square followed by the one it produces for a bishop on that square; so the
queen's move set is the union of the rook's and the bishop's. -/
theorem queen_eq_rook_append_bishop (fuel : Nat) (hfuel : 8 ≤ fuel) (s : State)
    (queen rook bishop : Piece) (row col : Int) (h : inBounds row col)
    (hq : standsOn queen row col) (hr : standsOn rook row col) (hb : standsOn bishop row col)
    (htq : queen.metadata.type = "queen") (htr : rook.metadata.type = "rook")
    (htb : bishop.metadata.type = "bishop") :
    ∃ sq sr sb, showValidMoves fuel s queen = .ok sq ∧ showValidMoves fuel s rook = .ok sr ∧
      showValidMoves fuel s bishop = .ok sb ∧
      sq.validMoves = sr.validMoves ++ sb.validMoves ∧
      ∀ t, t ∈ sq.validMoves ↔ t ∈ sr.validMoves ∨ t ∈ sb.validMoves := by
  have key : movesOf s.pieces queen.metadata row col
      = movesOf s.pieces rook.metadata row col ++ movesOf s.pieces bishop.metadata row col := by
    rw [movesOf_queen _ _ _ _ htq, movesOf_rook _ _ _ _ htr, movesOf_bishop _ _ _ _ htb,
      queenDirections_eq, lineMoves_append]
  refine ⟨_, _, _, showValidMoves_eq hfuel s queen h hq, showValidMoves_eq hfuel s rook h hr,
    showValidMoves_eq hfuel s bishop h hb, key, ?_⟩
  intro t
  simp only [key, List.mem_append]

/-- Instance of C6: queen, rook and bishop on square (4, 3) amid the initial position. -/
theorem queen_eq_rook_append_bishop_witness :
    ∃ sq sr sb,
      showValidMoves 8 initialState
        { id := 40, position := ⟨1, 0, -1⟩, metadata := ⟨"queen", "white"⟩ } = .ok sq ∧
      showValidMoves 8 initialState
        { id := 41, position := ⟨1, 0, -1⟩, metadata := ⟨"rook", "white"⟩ } = .ok sr ∧
      showValidMoves 8 initialState
        { id := 42, position := ⟨1, 0, -1⟩, metadata := ⟨"bishop", "white"⟩ } = .ok sb ∧
      sq.validMoves = sr.validMoves ++ sb.validMoves ∧
      ∀ t, t ∈ sq.validMoves ↔ t ∈ sr.validMoves ∨ t ∈ sb.validMoves :=
  queen_eq_rook_append_bishop 8 (by decide) initialState _ _ _ 4 3 (by decide) (by decide)
    (by decide) (by decide) rfl rfl rfl

/-- C7: for a piece of any type on an in-bounds square, under any occupancy,
`showValidMoves` returns and `validMoves` contains no tile twice and no two
tiles of the same square, and never the piece's own square. -/
theorem validMoves_nodup (fuel : Nat) (hfuel : 8 ≤ fuel) (s : State)
    (piece : Piece) (row col : Int) (h : inBounds row col) (hp : standsOn piece row col) :
    ∃ s2, showValidMoves fuel s piece = .ok s2 ∧ s2.validMoves.Nodup ∧
      (s2.validMoves.map fun t => (t.row, t.col)).Nodup ∧
      ∀ t ∈ s2.validMoves, ¬ (t.row = row ∧ t.col = col) := by
  have hn := movesOf_nodup s.pieces piece.metadata row col
  exact ⟨_, showValidMoves_eq hfuel s piece h hp, List.Nodup.of_map _ hn.1, hn.1, hn.2⟩

/-- Instance of C7: a black queen on square (4, 3) amid the initial position. -/
theorem validMoves_nodup_witness :
    ∃ s2, showValidMoves 8 initialState
        { id := 40, position := ⟨1, 0, -1⟩, metadata := ⟨"queen", "black"⟩ } = .ok s2 ∧
      s2.validMoves.Nodup ∧ (s2.validMoves.map fun t => (t.row, t.col)).Nodup ∧
      ∀ t ∈ s2.validMoves, ¬ (t.row = 4 ∧ t.col = 3) :=
  validMoves_nodup 8 (by decide) initialState _ 4 3 (by decide) (by decide)

/-! ## `createPieces` and the event handler -/

theorem range_boardSize : List.range boardSize.toNat = [0, 1, 2, 3, 4, 5, 6, 7] := by
  decide

theorem createPieces_eq (s : State) :
    createPieces s =
      { s with
        nextId := s.nextId + 32,
        pieces := [
        ⟨s.nextId + 0, ⟨-7, 1, -5⟩, ⟨"pawn", "white"⟩⟩,
        ⟨s.nextId + 1, ⟨-7, 1, 5⟩, ⟨"pawn", "black"⟩⟩,
        ⟨s.nextId + 2, ⟨-5, 1, -5⟩, ⟨"pawn", "white"⟩⟩,
        ⟨s.nextId + 3, ⟨-5, 1, 5⟩, ⟨"pawn", "black"⟩⟩,
        ⟨s.nextId + 4, ⟨-3, 1, -5⟩, ⟨"pawn", "white"⟩⟩,
        ⟨s.nextId + 5, ⟨-3, 1, 5⟩, ⟨"pawn", "black"⟩⟩,
        ⟨s.nextId + 6, ⟨-1, 1, -5⟩, ⟨"pawn", "white"⟩⟩,
        ⟨s.nextId + 7, ⟨-1, 1, 5⟩, ⟨"pawn", "black"⟩⟩,
        ⟨s.nextId + 8, ⟨1, 1, -5⟩, ⟨"pawn", "white"⟩⟩,
        ⟨s.nextId + 9, ⟨1, 1, 5⟩, ⟨"pawn", "black"⟩⟩,
        ⟨s.nextId + 10, ⟨3, 1, -5⟩, ⟨"pawn", "white"⟩⟩,
        ⟨s.nextId + 11, ⟨3, 1, 5⟩, ⟨"pawn", "black"⟩⟩,
        ⟨s.nextId + 12, ⟨5, 1, -5⟩, ⟨"pawn", "white"⟩⟩,
        ⟨s.nextId + 13, ⟨5, 1, 5⟩, ⟨"pawn", "black"⟩⟩,
        ⟨s.nextId + 14, ⟨7, 1, -5⟩, ⟨"pawn", "white"⟩⟩,
        ⟨s.nextId + 15, ⟨7, 1, 5⟩, ⟨"pawn", "black"⟩⟩,
        ⟨s.nextId + 16, ⟨-7, 1, -7⟩, ⟨"rook", "white"⟩⟩,
        ⟨s.nextId + 17, ⟨7, 1, -7⟩, ⟨"rook", "white"⟩⟩,
        ⟨s.nextId + 18, ⟨-7, 1, 7⟩, ⟨"rook", "black"⟩⟩,
        ⟨s.nextId + 19, ⟨7, 1, 7⟩, ⟨"rook", "black"⟩⟩,
        ⟨s.nextId + 20, ⟨-5, 1, -7⟩, ⟨"knight", "white"⟩⟩,
        ⟨s.nextId + 21, ⟨5, 1, -7⟩, ⟨"knight", "white"⟩⟩,
        ⟨s.nextId + 22, ⟨-5, 1, 7⟩, ⟨"knight", "black"⟩⟩,
        ⟨s.nextId + 23, ⟨5, 1, 7⟩, ⟨"knight", "black"⟩⟩,
        ⟨s.nextId + 24, ⟨-3, 1, -7⟩, ⟨"bishop", "white"⟩⟩,
        ⟨s.nextId + 25, ⟨3, 1, -7⟩, ⟨"bishop", "white"⟩⟩,
        ⟨s.nextId + 26, ⟨-3, 1, 7⟩, ⟨"bishop", "black"⟩⟩,
        ⟨s.nextId + 27, ⟨3, 1, 7⟩, ⟨"bishop", "black"⟩⟩,
        ⟨s.nextId + 28, ⟨-1, 1, -7⟩, ⟨"queen", "white"⟩⟩,
        ⟨s.nextId + 29, ⟨-1, 1, 7⟩, ⟨"queen", "black"⟩⟩,
        ⟨s.nextId + 30, ⟨1, 1, -7⟩, ⟨"king", "white"⟩⟩,
        ⟨s.nextId + 31, ⟨1, 1, 7⟩, ⟨"king", "black"⟩⟩] } := by
  simp only [createPieces, range_boardSize, List.foldl_cons, List.foldl_nil]
  simp [createPiece, boardSize, Nat.add_assoc]

theorem showValidMoves_total {fuel : Nat} (hfuel : 8 ≤ fuel) (s : State) (piece : Piece) :
    showValidMoves fuel s piece = .ok { s with validMoves := movesFor s.pieces piece } := by
  cases hfind : tiles.flatten.find? (fun tile =>
      tile.position.x == piece.position.x && tile.position.z == piece.position.z) with
  | none =>
    unfold showValidMoves movesFor
    simp only [hfind, clearHighlights]
  | some t =>
    have hmem := List.mem_of_find?_eq_some hfind
    have hpred := List.find?_some hfind
    obtain ⟨hb, ht⟩ := tiles_flatten_spec t hmem
    have hp : standsOn piece t.row t.col := by
      simp only [Bool.and_eq_true, beq_iff_eq] at hpred
      unfold standsOn
      rw [← ht]
      exact ⟨hpred.1.symm, hpred.2.symm⟩
    rw [showValidMoves_eq hfuel s piece hb hp]
    simp only [movesFor, hfind]

theorem movesOf_genuine (pieces : List Piece) (m : Metadata) (row col : Int) :
    ∀ t ∈ movesOf pieces m row col, t = mkTile t.row t.col := by
  have hline : ∀ ds, ∀ t ∈ lineCandidates row col ds, t = mkTile t.row t.col := by
    intro ds t ht
    simp only [lineCandidates, List.mem_flatMap, rayTiles, List.mem_map] at ht
    obtain ⟨d, _, k, _, rfl⟩ := ht
    rfl
  have hstep : ∀ ds, ∀ t ∈ stepCandidates row col ds, t = mkTile t.row t.col := by
    intro ds t ht
    simp only [stepCandidates, List.mem_map] at ht
    obtain ⟨d, _, rfl⟩ := ht
    rfl
  intro t ht
  rcases movesOf_sublist pieces m row col with h | h | h | h
  · exact hline _ t (h.subset ht)
  · exact hstep _ t (h.subset ht)
  · exact hstep _ t (h.subset ht)
  · exact hstep _ t (h.subset ht)

theorem movesFor_spec (pieces : List Piece) (piece : Piece) :
    ∀ t ∈ movesFor pieces piece,
      t = mkTile t.row t.col ∧ isOccupied pieces t.row t.col = false := by
  intro t ht
  unfold movesFor at ht
  split at ht
  · simp at ht
  · exact ⟨movesOf_genuine _ _ _ _ t ht, ((free_iff _ _).1 (movesOf_free _ _ _ _ t ht)).2⟩

theorem selectPiece_fuel {fuel : Nat} (hfuel : 8 ≤ fuel) (s : State) (piece : Piece) :
    selectPiece fuel s piece = selectPiece 8 s piece := by
  unfold selectPiece
  split
  · simp only [showValidMoves_total hfuel, showValidMoves_total (le_refl 8)]
  · rfl

theorem step_fuel {fuel : Nat} (hfuel : 8 ≤ fuel) (s : State) (e : Event) :
    step fuel s e = step 8 s e := by
  cases e with
  | toggleTheme => rfl
  | resetBoard => rfl
  | pointerPick pickedMesh =>
    simp only [step, onPointerPick]
    split
    · rfl
    · split
      · exact selectPiece_fuel hfuel _ _
      · rfl

theorem run_fuel {fuel : Nat} (hfuel : 8 ≤ fuel) (s : State) (events : List Event) :
    run fuel s events = run 8 s events := by
  have : step fuel = step 8 := by
    funext s e; exact step_fuel hfuel s e
  simp only [run, this]

theorem toOption_map_eq_some {α β : Type} (r : Except Err α) (f : α → β) (b : β)
    (h : r.toOption.map f = some b) : ∃ a, r = .ok a ∧ f a = b := by
  cases r with
  | error e => simp [Except.toOption] at h
  | ok a => exact ⟨a, rfl, by simpa [Except.toOption] using h⟩

theorem initial_pawns_check :
    ∀ p ∈ initialState.pieces, p.metadata.type = "pawn" →
      (showValidMoves 8 initialState p).toOption.map (fun s => s.validMoves) = some [] ∧
      inBounds (pieceRow p) (pieceCol p) ∧ standsOn p (pieceRow p) (pieceCol p) ∧
      ((p.metadata.color = "white" ∧ pieceCol p = 1 ∧
          ∃ q ∈ initialState.pieces, q.metadata.color = "white" ∧ q.metadata.type ≠ "pawn" ∧
            pieceRow q = pieceRow p ∧ pieceCol q = 0) ∨
        (p.metadata.color = "black" ∧ pieceCol p = 6 ∧
          ∃ q ∈ initialState.pieces, q.metadata.color = "black" ∧ q.metadata.type ≠ "pawn" ∧
            pieceRow q = pieceRow p ∧ pieceCol q = 7)) := by
  decide

theorem pawn_candidate (fuel : Nat) (s : State) (piece : Piece) (row col : Int)
    (h : inBounds row col) (hp : standsOn piece row col) (ht : piece.metadata.type = "pawn")
    (target : Int) (htarget : target = col + pawnDir piece.metadata.color)
    (hb : 0 ≤ target ∧ target < 8) :
    ∃ s3, showValidMoves fuel s piece = .ok s3 ∧
      s3.validMoves =
        if isOccupied s.pieces row target = false then [mkTile row target] else [] := by
  have hfuel : showValidMoves fuel s piece = showValidMoves 8 s piece := by
    apply showValidMoves_fuel_irrelevant <;> rw [ht] <;> decide
  refine ⟨_, hfuel.trans (showValidMoves_eq (le_refl 8) s piece h hp), ?_⟩
  show movesOf s.pieces piece.metadata row col = _
  rw [movesOf_pawn _ _ _ _ ht]
  have hin := h
  simp only [inBounds, boardSize] at hin
  simp only [stepMoves, List.map_cons, List.map_nil, add_zero, List.filter_cons,
    List.filter_nil]
  rw [← htarget]
  by_cases hocc : isOccupied s.pieces row target = false
  · have hf : free s.pieces (mkTile row target) = true := by
      rw [free_iff]
      exact ⟨⟨hin.1, hin.2.1, hb.1, hb.2⟩, hocc⟩
    rw [if_pos hf, if_pos hocc]
  · have hf : ¬ (free s.pieces (mkTile row target) = true) := by
      rw [free_iff]
      exact fun hc => hocc hc.2
    rw [if_neg hf, if_neg hocc]

/-- C9: in the initial position placed by `createPieces` there are 16 pawns and
`showValidMoves` leaves each with an empty move set.  A white pawn stands at
column 1 and the only square `showValidMoves` ever offers it, whatever the
pieces list, is `(row, 0)` (offered exactly when unoccupied), which in the
initial position holds a white back-rank piece; a black pawn stands at column 6
and the only square `showValidMoves` ever offers it is `(row, 7)`, which holds a
black back-rank piece.  So the direction `showValidMoves` uses points toward the
pawn's own back rank. -/
theorem initial_pawns_blocked (fuel : Nat) (p : Piece) (hp : p ∈ initialState.pieces)
    (ht : p.metadata.type = "pawn") :
    (initialState.pieces.filter fun q => decide (q.metadata.type = "pawn")).length = 16 ∧
    (∃ s2, showValidMoves fuel initialState p = .ok s2 ∧ s2.validMoves = []) ∧
    inBounds (pieceRow p) (pieceCol p) ∧ standsOn p (pieceRow p) (pieceCol p) ∧
    ((p.metadata.color = "white" ∧ pieceCol p = 1 ∧
        (∀ s : State, ∃ s3, showValidMoves fuel s p = .ok s3 ∧
          s3.validMoves =
            if isOccupied s.pieces (pieceRow p) 0 = false then [mkTile (pieceRow p) 0]
            else []) ∧
        ∃ q ∈ initialState.pieces, q.metadata.color = "white" ∧ q.metadata.type ≠ "pawn" ∧
          pieceRow q = pieceRow p ∧ pieceCol q = 0) ∨
      (p.metadata.color = "black" ∧ pieceCol p = 6 ∧
        (∀ s : State, ∃ s3, showValidMoves fuel s p = .ok s3 ∧
          s3.validMoves =
            if isOccupied s.pieces (pieceRow p) 7 = false then [mkTile (pieceRow p) 7]
            else []) ∧
        ∃ q ∈ initialState.pieces, q.metadata.color = "black" ∧ q.metadata.type ≠ "pawn" ∧
          pieceRow q = pieceRow p ∧ pieceCol q = 7)) := by
  obtain ⟨h1, h2, h3, h4⟩ := initial_pawns_check p hp ht
  have hfuel : showValidMoves fuel initialState p = showValidMoves 8 initialState p := by
    apply showValidMoves_fuel_irrelevant <;> rw [ht] <;> decide
  refine ⟨by decide, ?_, h2, h3, ?_⟩
  · obtain ⟨s2, hs2, hv⟩ := toOption_map_eq_some _ _ _ h1
    exact ⟨s2, hfuel.trans hs2, hv⟩
  · rcases h4 with ⟨hc, hcol, hq⟩ | ⟨hc, hcol, hq⟩
    · refine Or.inl ⟨hc, hcol, fun s => ?_, hq⟩
      exact pawn_candidate fuel s p _ _ h2 h3 ht 0 (by rw [hcol, hc]; decide)
        (by decide)
    · refine Or.inr ⟨hc, hcol, fun s => ?_, hq⟩
      exact pawn_candidate fuel s p _ _ h2 h3 ht 7 (by rw [hcol, hc]; decide)
        (by decide)

/-- Instance of C9: the black pawn on square (0, 6). -/
theorem initial_pawns_blocked_witness :
    (initialState.pieces.filter fun q => decide (q.metadata.type = "pawn")).length = 16 ∧
    (∃ s2, showValidMoves 0 initialState
        { id := 1, position := ⟨-7, 1, 5⟩, metadata := ⟨"pawn", "black"⟩ } = .ok s2 ∧
      s2.validMoves = []) ∧
    inBounds 0 6 ∧
    standsOn { id := 1, position := ⟨-7, 1, 5⟩, metadata := ⟨"pawn", "black"⟩ } 0 6 ∧
    (((("black" : String) = "white") ∧ (6 : Int) = 1 ∧
        (∀ s : State, ∃ s3, showValidMoves 0 s
            { id := 1, position := ⟨-7, 1, 5⟩, metadata := ⟨"pawn", "black"⟩ } = .ok s3 ∧
          s3.validMoves = if isOccupied s.pieces 0 0 = false then [mkTile 0 0] else []) ∧
        ∃ q ∈ initialState.pieces, q.metadata.color = "white" ∧ q.metadata.type ≠ "pawn" ∧
          pieceRow q = 0 ∧ pieceCol q = 0) ∨
      ((("black" : String) = "black") ∧ (6 : Int) = 6 ∧
        (∀ s : State, ∃ s3, showValidMoves 0 s
            { id := 1, position := ⟨-7, 1, 5⟩, metadata := ⟨"pawn", "black"⟩ } = .ok s3 ∧
          s3.validMoves = if isOccupied s.pieces 0 7 = false then [mkTile 0 7] else []) ∧
        ∃ q ∈ initialState.pieces, q.metadata.color = "black" ∧ q.metadata.type ≠ "pawn" ∧
          pieceRow q = 0 ∧ pieceCol q = 7)) :=
  initial_pawns_blocked 0 { id := 1, position := ⟨-7, 1, 5⟩, metadata := ⟨"pawn", "black"⟩ }
    (by decide) rfl

theorem createPieces_squares (s : State) :
    (createPieces s).pieces.map squareOf = initialState.pieces.map squareOf := by
  rw [initialState, createPieces_eq, createPieces_eq]
  rfl

theorem createPieces_ids (s : State) :
    (createPieces s).pieces.map (fun p => p.id) = (List.range 32).map fun k => s.nextId + k := by
  rw [createPieces_eq]
  rfl

theorem createPieces_placement (s : State) :
    placement (createPieces s).pieces = placement initialState.pieces := by
  rw [initialState, createPieces_eq, createPieces_eq]
  rfl

theorem createPieces_fields (s : State) :
    (createPieces s).isDarkMode = s.isDarkMode ∧ (createPieces s).currentTurn = s.currentTurn ∧
      (createPieces s).selectedPiece = s.selectedPiece ∧
      (createPieces s).validMoves = s.validMoves ∧
      (createPieces s).nextId = s.nextId + 32 := by
  rw [createPieces_eq]
  exact ⟨rfl, rfl, rfl, rfl, rfl⟩

theorem inv_createPieces (s : State)
    (hsel : ∀ sel, s.selectedPiece = some sel → sel < s.nextId)
    (hgen : ∀ t ∈ s.validMoves, t = mkTile t.row t.col) : Inv (createPieces s) := by
  obtain ⟨_, _, f3, f4, f5⟩ := createPieces_fields s
  have hids := createPieces_ids s
  have hfresh : ∀ p ∈ (createPieces s).pieces, s.nextId ≤ p.id ∧ p.id < s.nextId + 32 := by
    intro p hp
    have : p.id ∈ (createPieces s).pieces.map (fun p => p.id) := List.mem_map_of_mem _ hp
    rw [hids, List.mem_map] at this
    obtain ⟨k, hk, hk2⟩ := this
    rw [List.mem_range] at hk
    omega
  refine ⟨?_, ?_, ?_, ?_, ?_, ?_, ?_⟩
  · rw [hids]
    exact (List.nodup_range 32).map (fun a b h => by simpa using h)
  · rw [createPieces_squares]
    decide
  · have := congrArg List.length hids
    simpa using this
  · intro p hp
    rw [f5]
    exact (hfresh p hp).2
  · intro sel h
    rw [f3] at h
    rw [f5]
    have := hsel sel h
    omega
  · rw [f4]
    exact hgen
  · intro sel h ⟨p, hp, hpid⟩
    rw [f3] at h
    have h1 := hsel sel h
    have h2 := (hfresh p hp).1
    omega

theorem inv_initialState : Inv initialState := by
  apply inv_createPieces
  · intro sel h; simp at h
  · intro t ht; simp at ht

theorem isOccupied_false_iff (pieces : List Piece) (row col : Int) :
    isOccupied pieces row col = false ↔ ∀ q ∈ pieces, squareOf q ≠ (row, col) := by
  simp only [isOccupied, List.any_eq_false, Bool.and_eq_true, beq_iff_eq, squareOf, ne_eq,
    Prod.mk.injEq]

theorem squareOf_relocated (p : Piece) (t : Tile) (ht : t = mkTile t.row t.col) :
    squareOf { p with position := t.position } = (t.row, t.col) := by
  have hx : t.position.x = (mkTile t.row t.col).position.x := by rw [← ht]
  have hz : t.position.z = (mkTile t.row t.col).position.z := by rw [← ht]
  simp only [squareOf, pieceRow, pieceCol, hx, hz, mathRound_tile_x, mathRound_tile_z]

theorem selectPiece_eq {fuel : Nat} (hfuel : 8 ≤ fuel) (s : State) (piece : Piece) :
    selectPiece fuel s piece = .ok
      (if (s.pieces.any fun p => p.id == piece.id) = true ∧ piece.metadata.color = s.currentTurn
        then { s with selectedPiece := some piece.id, validMoves := movesFor s.pieces piece }
        else s) := by
  unfold selectPiece
  split
  · rw [showValidMoves_total hfuel]
    split <;> rfl
  · rfl

theorem inv_select (s : State) (hs : Inv s) (piece : Piece) (hp : piece ∈ s.pieces) :
    Inv { s with selectedPiece := some piece.id, validMoves := movesFor s.pieces piece } := by
  refine ⟨hs.idsNodup, hs.squaresNodup, hs.count, hs.idsFresh, ?_, ?_, ?_⟩
  · intro sel h
    simp only [Option.some.injEq] at h
    subst h
    exact hs.idsFresh piece hp
  · intro t ht
    exact (movesFor_spec _ _ t ht).1
  · intro sel _ _ t ht
    exact (movesFor_spec _ _ t ht).2

theorem inv_commit (s : State) (hs : Inv s) (sel : Nat) (hsel : s.selectedPiece = some sel)
    (t : Tile) (ht : t ∈ s.validMoves) :
    Inv { clearHighlights (updateTurn
      { s with pieces := s.pieces.map fun p =>
          if p.id = sel then { p with position := t.position } else p }) with
      selectedPiece := none } := by
  have hgen := hs.movesGenuine t ht
  have hids : (s.pieces.map fun p =>
      if p.id = sel then { p with position := t.position } else p).map (fun p => p.id)
        = s.pieces.map fun p => p.id := by
    rw [List.map_map]
    apply List.map_congr_left
    intro p _
    simp only [Function.comp]
    split <;> rfl
  refine ⟨?_, ?_, ?_, ?_, ?_, ?_, ?_⟩
  · show ((s.pieces.map _).map (fun p : Piece => p.id)).Nodup
    rw [hids]; exact hs.idsNodup
  · show ((s.pieces.map _).map squareOf).Nodup
    have h1 : s.pieces.Pairwise (fun a b => a.id ≠ b.id) := List.pairwise_map.1 hs.idsNodup
    have h2 : s.pieces.Pairwise (fun a b => squareOf a ≠ squareOf b) :=
      List.pairwise_map.1 hs.squaresNodup
    unfold List.Nodup
    rw [List.pairwise_map, List.pairwise_map]
    refine (h1.and h2).imp_of_mem ?_
    intro a b ha hb hab
    obtain ⟨hid, hsq⟩ := hab
    by_cases ha1 : a.id = sel
    · have hb1 : b.id ≠ sel := fun h => hid (ha1.trans h.symm)
      have hfree := (isOccupied_false_iff _ _ _).1 (hs.movesFree sel hsel ⟨a, ha, ha1⟩ t ht)
      rw [if_pos ha1, if_neg hb1, squareOf_relocated a t hgen]
      exact (hfree b hb).symm
    · rw [if_neg ha1]
      by_cases hb1 : b.id = sel
      · have hfree := (isOccupied_false_iff _ _ _).1 (hs.movesFree sel hsel ⟨b, hb, hb1⟩ t ht)
        rw [if_pos hb1, squareOf_relocated b t hgen]
        exact hfree a ha
      · rw [if_neg hb1]; exact hsq
  · show (s.pieces.map _).length = 32
    rw [List.length_map]; exact hs.count
  · intro p hp
    have : p.id ∈ (s.pieces.map fun p =>
        if p.id = sel then { p with position := t.position } else p).map (fun p => p.id) :=
      List.mem_map_of_mem _ hp
    rw [hids, List.mem_map] at this
    obtain ⟨q, hq, hqp⟩ := this
    rw [← hqp]
    exact hs.idsFresh q hq
  · intro sel2 h
    simp at h
  · intro t2 ht2
    simp [clearHighlights] at ht2
  · intro sel2 h
    simp at h

theorem inv_step {fuel : Nat} (hfuel : 8 ≤ fuel) (s : State) (hs : Inv s) (e : Event) :
    ∃ s2, step fuel s e = .ok s2 ∧ Inv s2 := by
  cases e with
  | toggleTheme =>
    exact ⟨_, rfl, ⟨hs.idsNodup, hs.squaresNodup, hs.count, hs.idsFresh, hs.selFresh,
      hs.movesGenuine, hs.movesFree⟩⟩
  | resetBoard => exact ⟨_, rfl, inv_createPieces s hs.selFresh hs.movesGenuine⟩
  | pointerPick pickedMesh =>
    cases pickedMesh with
    | none => exact ⟨s, rfl, hs⟩
    | some mesh =>
      simp only [step, onPointerPick]
      cases hfind : piecesFind s.pieces mesh with
      | some piece =>
        have hp : piece ∈ s.pieces := by
          cases mesh with
          | tile t => simp [piecesFind] at hfind
          | piece id => exact List.mem_of_find?_eq_some hfind
        simp only []
        rw [selectPiece_eq hfuel]
        split
        · exact ⟨_, rfl, inv_select s hs piece hp⟩
        · exact ⟨_, rfl, hs⟩
      | none =>
        simp only []
        cases mesh with
        | piece id => exact ⟨s, by simp [validMovesIncludes], hs⟩
        | tile t =>
          by_cases hinc : validMovesIncludes s.validMoves (.tile t) = true
          · rw [if_pos hinc]
            have ht : t ∈ s.validMoves := by
              simpa [validMovesIncludes] using hinc
            cases hsel : s.selectedPiece with
            | none => exact ⟨s, by simp [meshPosition], hs⟩
            | some sel => exact ⟨_, rfl, inv_commit s hs sel hsel t ht⟩
          · rw [if_neg hinc]
            exact ⟨s, rfl, hs⟩

theorem inv_run {fuel : Nat} (hfuel : 8 ≤ fuel) (events : List Event) :
    ∀ s, Inv s → ∃ s2, run fuel s events = .ok s2 ∧ Inv s2 := by
  induction events with
  | nil => intro s hs; exact ⟨s, rfl, hs⟩
  | cons e es ih =>
    intro s hs
    obtain ⟨s1, h1, hs1⟩ := inv_step hfuel s hs e
    obtain ⟨s2, h2, hs2⟩ := ih s1 hs1
    refine ⟨s2, ?_, hs2⟩
    simp only [run, List.foldlM_cons, h1] at h2 ⊢
    exact h2

/-! ## The claims about the reachable states -/

/-- C8 (as amended): in every state reachable from the initial state by pointer
picks, Reset Board clicks and Toggle Theme clicks (the run never fails), no two
pieces of the list stand on the same square and the list still has its 32
pieces; and whenever the selected piece is a piece of the list, every tile
whose pick would commit a move is the genuine tile of a square that no piece
of the list occupies. -/
theorem reachable_no_shared_square (fuel : Nat) (hfuel : 8 ≤ fuel) (events : List Event) :
    ∃ s, run fuel initialState events = .ok s ∧
      s.pieces.Pairwise (fun p q => (pieceRow p, pieceCol p) ≠ (pieceRow q, pieceCol q)) ∧
      s.pieces.length = 32 ∧
      ∀ sel t, s.selectedPiece = some sel →
        validMovesIncludes s.validMoves (.tile t) = true →
        (∃ p ∈ s.pieces, p.id = sel) →
          t = mkTile t.row t.col ∧ isOccupied s.pieces t.row t.col = false := by
  obtain ⟨s, hrun, hs⟩ := inv_run hfuel events initialState inv_initialState
  refine ⟨s, hrun, List.pairwise_map.1 hs.squaresNodup, hs.count, ?_⟩
  intro sel t hsel hinc hp
  have ht : t ∈ s.validMoves := by simpa [validMovesIncludes] using hinc
  exact ⟨hs.movesGenuine t ht, hs.movesFree sel hsel hp t ht⟩

/-- Instance of C8 (as amended): a knight move, a theme toggle and a selection. -/
theorem reachable_no_shared_square_witness :
    ∃ s, run 8 initialState
        [.pointerPick (some (.piece 20)), .pointerPick (some (.tile (mkTile 2 2))),
          .toggleTheme, .pointerPick (some (.piece 22))] = .ok s ∧
      s.pieces.Pairwise (fun p q => (pieceRow p, pieceCol p) ≠ (pieceRow q, pieceCol q)) ∧
      s.pieces.length = 32 ∧
      ∀ sel t, s.selectedPiece = some sel →
        validMovesIncludes s.validMoves (.tile t) = true →
        (∃ p ∈ s.pieces, p.id = sel) →
          t = mkTile t.row t.col ∧ isOccupied s.pieces t.row t.col = false :=
  reachable_no_shared_square 8 (by decide) _

/-- C8 (as stated) fails: after the white knight has left `(1, 0)`, selecting it
again highlights `(1, 0)`; a Reset Board then puts a fresh knight on `(1, 0)`
while the old selection and highlights stay, and a pick of tile `(1, 0)` still
commits a move (the turn flips, the selection is cleared) although a piece of
the list occupies that square. -/
theorem commit_onto_occupied_square :
    ∃ s sel s2,
      run 8 initialState
        [.pointerPick (some (.piece 20)), .pointerPick (some (.tile (mkTile 2 2))),
          .pointerPick (some (.piece 22)), .pointerPick (some (.tile (mkTile 2 5))),
          .pointerPick (some (.piece 20)), .resetBoard] = .ok s ∧
      s.selectedPiece = some sel ∧ s.currentTurn = "white" ∧
      validMovesIncludes s.validMoves (.tile (mkTile 1 0)) = true ∧
      isOccupied s.pieces 1 0 = true ∧
      step 8 s (.pointerPick (some (.tile (mkTile 1 0)))) = .ok s2 ∧
      s2.currentTurn = "black" ∧ s2.selectedPiece = none := by
  have h1 : (run 8 initialState
        [.pointerPick (some (.piece 20)), .pointerPick (some (.tile (mkTile 2 2))),
          .pointerPick (some (.piece 22)), .pointerPick (some (.tile (mkTile 2 5))),
          .pointerPick (some (.piece 20)), .resetBoard]).toOption.map
      (fun s => (s.selectedPiece == some 20 && s.currentTurn == "white" &&
        validMovesIncludes s.validMoves (.tile (mkTile 1 0)) && isOccupied s.pieces 1 0 &&
        ((step 8 s (.pointerPick (some (.tile (mkTile 1 0))))).toOption.map
          fun s2 => (s2.currentTurn == "black" && s2.selectedPiece.isNone)) == some true))
      = some true := by
    decide
  obtain ⟨s, hs, hf⟩ := toOption_map_eq_some _ _ _ h1
  simp only [Bool.and_eq_true, beq_iff_eq] at hf
  obtain ⟨⟨⟨⟨hsel, hturn⟩, hinc⟩, hocc⟩, hstep⟩ := hf
  obtain ⟨s2, hs2, hf2⟩ := toOption_map_eq_some _ _ _ hstep
  simp only [Bool.and_eq_true, beq_iff_eq] at hf2
  exact ⟨s, 20, s2, hs, hsel, hturn, hinc, hocc, hs2, hf2.1, Option.isNone_iff_eq_none.1 hf2.2⟩

/-- C10: `createPieces` (the Reset Board action) replaces only the pieces list:
it leaves `currentTurn`, `selectedPiece`, `validMoves` (and `isDarkMode`)
unchanged and always yields the initial placement; so some reachable state is
reset to the initial placement with `currentTurn = "black"`, keeping a selection
that refers to a piece which is no longer in the pieces list. -/
theorem createPieces_replaces_only_pieces (fuel : Nat) (hfuel : 8 ≤ fuel) :
    (∀ s : State, step fuel s .resetBoard = .ok (createPieces s) ∧
      (createPieces s).currentTurn = s.currentTurn ∧
      (createPieces s).selectedPiece = s.selectedPiece ∧
      (createPieces s).validMoves = s.validMoves ∧
      (createPieces s).isDarkMode = s.isDarkMode ∧
      placement (createPieces s).pieces = placement initialState.pieces) ∧
    ∃ events s sel, run fuel initialState events = .ok s ∧
      s.selectedPiece = some sel ∧ (∃ p ∈ s.pieces, p.id = sel) ∧
      (createPieces s).currentTurn = "black" ∧
      (createPieces s).selectedPiece = some sel ∧
      ∀ p ∈ (createPieces s).pieces, p.id ≠ sel := by
  constructor
  · intro s
    obtain ⟨f1, f2, f3, f4, _⟩ := createPieces_fields s
    exact ⟨rfl, f2, f3, f4, f1, createPieces_placement s⟩
  · have h1 : (run 8 initialState
          [.pointerPick (some (.piece 20)), .pointerPick (some (.tile (mkTile 2 2))),
            .pointerPick (some (.piece 22))]).toOption.map
        (fun s => (s.selectedPiece, s.currentTurn, s.pieces.any fun p => p.id == 22))
        = some (some 22, "black", true) := by
      decide
    obtain ⟨s, hs, hf⟩ := toOption_map_eq_some _ _ _ h1
    simp only [Prod.mk.injEq] at hf
    obtain ⟨hsel, hturn, hany⟩ := hf
    obtain ⟨s3, hs3, hinv⟩ := inv_run (le_refl 8) _ initialState inv_initialState
    rw [hs] at hs3
    cases hs3
    obtain ⟨_, f2, f3, _, _⟩ := createPieces_fields s
    refine ⟨_, s, 22, (run_fuel hfuel _ _).trans hs, hsel, ?_, f2.trans hturn,
      f3.trans hsel, ?_⟩
    · simpa using hany
    · intro p hp hc
      have hlt := hinv.selFresh 22 hsel
      have : p.id ∈ (createPieces s).pieces.map (fun p => p.id) := List.mem_map_of_mem _ hp
      rw [createPieces_ids, List.mem_map] at this
      obtain ⟨k, _, hk⟩ := this
      omega

/-- Instance of C10 with fuel 8. -/
theorem createPieces_replaces_only_pieces_witness :
    (∀ s : State, step 8 s .resetBoard = .ok (createPieces s) ∧
      (createPieces s).currentTurn = s.currentTurn ∧
      (createPieces s).selectedPiece = s.selectedPiece ∧
      (createPieces s).validMoves = s.validMoves ∧
      (createPieces s).isDarkMode = s.isDarkMode ∧
      placement (createPieces s).pieces = placement initialState.pieces) ∧
    ∃ events s sel, run 8 initialState events = .ok s ∧
      s.selectedPiece = some sel ∧ (∃ p ∈ s.pieces, p.id = sel) ∧
      (createPieces s).currentTurn = "black" ∧
      (createPieces s).selectedPiece = some sel ∧
      ∀ p ∈ (createPieces s).pieces, p.id ≠ sel :=
  createPieces_replaces_only_pieces 8 (by decide)

end Chess
